import Mathlib

/-
  Verification of the partial-order-alignment (POA) graph core
  (graph.cpp of the SPOA library).

  The C++ code is shallowly embedded.  Conventions used throughout:
  * float weights are modelled as exact integers: every weight appearing
    in the claims is integral and small enough for C++ float arithmetic
    to be exact, and the algorithms only ever add and compare weights;
  * a C++ assert that fails is modelled as `Except.error` (the program
    aborts; it does not return);
  * an out-of-bounds vector/string access (undefined behaviour in C++,
    e.g. indexing with (size_t)(-1), or front() of an empty vector) is
    modelled as `Except.error Err.oobRead`;
  * vector reads that are in bounds in every execution that has not
    already trapped are modelled with `List.getD`;
  * C++ while-loops whose termination is a claim under study are given
    explicit fuel; running out of fuel yields `Err.fuelExhausted`;
  * int32_t values carrying the -1 sentinel are modelled as `Int`,
    and the int32->uint32 conversion applied by the code when such a
    value is stored into a uint32 variable is modelled by `u32`.
-/

namespace SPOA

inductive Err where
  | invalidInput
  | graphCorruption
  | oobRead
  | assertFailed
  | fuelExhausted
deriving DecidableEq, Repr

instance exceptDecEq {ε α : Type} [DecidableEq ε] [DecidableEq α] :
    DecidableEq (Except ε α) := fun a b =>
  match a, b with
  | .ok x, .ok y =>
    if h : x = y then .isTrue (by rw [h]) else .isFalse (by simp [h])
  | .error x, .error y =>
    if h : x = y then .isTrue (by rw [h]) else .isFalse (by simp [h])
  | .ok _, .error _ => .isFalse (by simp)
  | .error _, .ok _ => .isFalse (by simp)

/-- edge.hpp is not part of the sources; modelled from the spec: begin/end
node ids, the label (sequence index) plus weight added per traversing
sequence, and the aggregate total weight. -/
structure Edge where
  begin_node_id : Nat
  end_node_id : Nat
  sequence_labels : List Nat
  total_weight : ℤ
deriving DecidableEq, Repr

/-- node.hpp is not part of the sources; modelled from the spec: dense id,
letter, variant flag (type 0 = primary, 1 = variant), and the ids of
aligned alternative nodes.  Adjacency is recovered from the graph's
central edge list (see in_edges / out_edges). -/
structure Node where
  id : Nat
  letter : Char
  type : Nat
  aligned_nodes_ids : List Nat
deriving DecidableEq, Repr

instance : Inhabited Node := ⟨⟨0, ' ', 0, []⟩⟩

instance : Inhabited Edge := ⟨⟨0, 0, [], 0⟩⟩

/-- Graph state (graph.hpp / graph.cpp).  The C++ stores each edge as a
shared_ptr registered in both endpoints' adjacency lists; here edges live
in one central list in creation order, and a node's in/out lists are the
filters of that list (filtering preserves the per-node registration
order, and in-place edge updates are updates of the central list).
num_nodes_ always equals nodes_.size() and is modelled as a function. -/
structure Graph where
  num_sequences : Nat
  nodes : List Node
  edges : List Edge
  alphabet : List Char
  is_sorted : Bool
  sorted_nodes_ids : List Nat
  sequences_start_nodes_ids : List Int
  consensus : List Nat
deriving DecidableEq, Repr

def Graph.num_nodes (g : Graph) : Nat := g.nodes.length

def in_edges (g : Graph) (id : Nat) : List Edge :=
  g.edges.filter (fun e => e.end_node_id == id)

def out_edges (g : Graph) (id : Nat) : List Edge :=
  g.edges.filter (fun e => e.begin_node_id == id)

/-- Conversion of an int32 value to uint32 (C++ implicit conversion). -/
def u32 (x : Int) : Nat := (x % 4294967296).toNat

/-- Representability as an int32_t.  In C++ the correspondence arrays
have element type int32_t, so representability is part of the input
type; the embedding models it as a guard. -/
def int32able (x : Int) : Bool :=
  decide (-2147483648 ≤ x) && decide (x < 2147483648)

/-- Checked read of a weight/score vector at a (possibly negative) index:
out-of-range indexing is undefined behaviour in C++, modelled as a trap. -/
def idxW (l : List ℤ) (i : Int) : Except Err ℤ :=
  if 0 ≤ i ∧ i.toNat < l.length then .ok (l.getD i.toNat 0) else .error .oobRead

/-- Checked read of the node vector at an int32 index. -/
def idxNode (g : Graph) (i : Int) : Except Err Node :=
  if 0 ≤ i ∧ i.toNat < g.num_nodes then .ok (g.nodes.getD i.toNat default)
  else .error .oobRead

/-- Checked read of a character of the sequence at an int32 index. -/
def idxChar (s : List Char) (i : Int) : Except Err Char :=
  if 0 ≤ i ∧ i.toNat < s.length then .ok (s.getD i.toNat ' ') else .error .oobRead

/-- std::set insertion into the alphabet (graph.cpp lines 40-42, 196-198). -/
def set_insert (l : List Char) (c : Char) : List Char :=
  if c ∈ l then l else l ++ [c]

/-- Graph::add_node (graph.cpp lines 55-58): appends a node, returns its id. -/
def add_node (g : Graph) (letter : Char) (type : Nat) : Graph × Nat :=
  let nd : Node := { id := g.num_nodes, letter := letter, type := type, aligned_nodes_ids := [] }
  ({ g with nodes := g.nodes ++ [nd] }, g.num_nodes)

/-- Edge::add_sequence: append the sequence label and add its weight. -/
def edge_add_sequence (e : Edge) (label : Nat) (w : ℤ) : Edge :=
  { e with sequence_labels := e.sequence_labels ++ [label],
           total_weight := e.total_weight + w }

/-- Update (in creation order) the first edge from b to en, as the C++
update of the first matching edge of b's out list does. -/
def update_first_edge (es : List Edge) (b en label : Nat) (w : ℤ) : List Edge :=
  match es with
  | [] => []
  | e :: rest =>
    if e.begin_node_id == b && e.end_node_id == en then
      edge_add_sequence e label w :: rest
    else
      e :: update_first_edge rest b en label w

/-- Graph::add_edge (graph.cpp lines 60-73).  The entry assert models the
precondition begin_node_id < num_nodes_ && end_node_id < num_nodes_. -/
def add_edge (g : Graph) (b en : Nat) (w : ℤ) : Except Err Graph :=
  if b < g.num_nodes ∧ en < g.num_nodes then
    if g.edges.any (fun e => e.begin_node_id == b && e.end_node_id == en) then
      .ok { g with edges := update_first_edge g.edges b en g.num_sequences w }
    else
      .ok { g with edges := g.edges ++
        [{ begin_node_id := b, end_node_id := en,
           sequence_labels := [g.num_sequences], total_weight := w }] }
  else .error .invalidInput

/-- Loop of Graph::add_sequence (graph.cpp lines 301-304): for i in
[b+1, e), create a node for sequence[i] and chain it to its predecessor
with weight weights[i-1] + weights[i].  The loop bound is carried as the
remaining iteration count e - i so that recursion is structural. -/
def chain_nodes (seq : List Char) (ws : List ℤ) : Nat → Nat → Graph →
    Except Err Graph
  | 0, _, g => .ok g
  | steps + 1, i, g => do
    let w1 ← idxW ws ((i : Int) - 1)
    let w2 ← idxW ws (i : Int)
    let p := add_node g (seq.getD i ' ') 0
    let g2 ← add_edge p.1 (p.2 - 1) p.2 (w1 + w2)
    chain_nodes seq ws steps (i + 1) g2

/-- Graph::add_sequence (graph.cpp lines 289-307). -/
def add_sequence (g : Graph) (seq : List Char) (ws : List ℤ) (b e : Nat) :
    Except Err (Graph × Int) :=
  if b == e then .ok (g, -1)
  else if b < seq.length ∧ e ≤ seq.length then do
    let p := add_node g (seq.getD b ' ') 0
    let g2 ← chain_nodes seq ws (e - (b + 1)) (b + 1) p.1
    .ok (g2, (p.2 : Int))
  else .error .invalidInput

/-- Id of the node stored at position i of the node vector
(nodes_[i]->id(), graph.cpp line 88). -/
def nodeIdAt (g : Graph) (i : Nat) : Nat := (g.nodes.getD i default).id

/-- Graph::visit_node (graph.cpp lines 103-118): three-color DFS over
incoming edges.  marks: 0 unmarked, 1 temporarily marked, 2 permanently
marked.  The entry assert (marks[node_id] != 1, "Graph is not a DAG!")
is the cycle signal.  The loop over the in-edge sources (lines 111-113)
is the foldlM.  Fuel models the call stack; the sort passes enough fuel
for every graph. -/
def visit_node (g : Graph) : Nat → List Nat × List Nat → Nat →
    Except Err (List Nat × List Nat)
  | 0, _, _ => .error .fuelExhausted
  | fuel + 1, (dst, marks), node_id =>
    if marks.getD node_id 0 == 1 then .error .graphCorruption
    else if marks.getD node_id 0 == 0 then do
      let st ← ((in_edges g node_id).map (fun e => e.begin_node_id)).foldlM
          (fun st v => visit_node g fuel st v) (dst, marks.set node_id 1)
      .ok (st.1 ++ [node_id], st.2.set node_id 2)
    else .ok (dst, marks)

/-- Scan for the first position j >= i whose node is unmarked
(graph.cpp lines 87-91); rem is the remaining scan length
g.num_nodes - i, making recursion structural. -/
def find_unmarked (g : Graph) (marks : List Nat) : Nat → Nat → Option Nat
  | 0, _ => none
  | rem + 1, i =>
    if marks.getD (nodeIdAt g i) 0 == 0 then some i
    else find_unmarked g marks rem (i + 1)

/-- Root loop of Graph::topological_sort (graph.cpp lines 85-97): repeat
scanning from the persistent index i for an unmarked node and DFS-visit
it.  Each iteration marks its root, so num_nodes + 1 rounds of fuel
always suffice. -/
def sort_loop (g : Graph) : Nat → List Nat → List Nat → Nat →
    Except Err (List Nat)
  | 0, _, _, _ => .error .fuelExhausted
  | fuel + 1, dst, marks, i =>
    match find_unmarked g marks (g.num_nodes - i) i with
    | none => .ok dst
    | some j =>
      match visit_node g (g.num_nodes + 1) (dst, marks) (nodeIdAt g j) with
      | .error er => .error er
      | .ok (dst', marks') => sort_loop g fuel dst' marks' j

/-- Check loop of Graph::is_topologically_sorted (graph.cpp lines
155-163): every in-edge source of each listed node must already have
been visited. -/
def topo_check (g : Graph) : List Nat → List Nat → Bool
  | _, [] => true
  | visited, id :: rest =>
    if (in_edges g id).all (fun e => visited.contains e.begin_node_id) then
      topo_check g (id :: visited) rest
    else false

/-- Graph::is_topologically_sorted (graph.cpp lines 152-166), without its
entry assert (the size assert is modelled at the call sites). -/
def is_topologically_sorted (g : Graph) : Bool :=
  topo_check g [] g.sorted_nodes_ids

/-- Graph::topological_sort (graph.cpp lines 75-101).  The trailing
assert(is_topologically_sorted() == true) (line 99), and the size assert
inside is_topologically_sorted (line 153), are modelled as checks. -/
def topological_sort (g : Graph) : Except Err Graph :=
  if g.is_sorted then .ok g
  else
    match sort_loop g (g.num_nodes + 1) [] (List.replicate g.num_nodes 0) 0 with
    | .error er => .error er
    | .ok dst =>
      let g' := { g with sorted_nodes_ids := dst }
      if g'.num_nodes == dst.length then
        if is_topologically_sorted g' then .ok { g' with is_sorted := true }
        else .error .assertFailed
      else .error .assertFailed

/-- The freshly constructed empty graph state (Graph constructor,
graph.cpp lines 22-53) with the alphabet of the first sequence. -/
def init_graph (seq : List Char) : Graph :=
  { num_sequences := 0, nodes := [], edges := [],
    alphabet := seq.foldl set_insert [], is_sorted := false,
    sorted_nodes_ids := [], sequences_start_nodes_ids := [],
    consensus := [] }

/-- Graph::Graph + createGraph (graph.cpp lines 17-50).  The asserts of
createGraph (nonempty sequence, matching weight length) are modelled as
InvalidInput errors. -/
def createGraph (seq : List Char) (ws : List ℤ) : Except Err Graph :=
  if seq.length = 0 then .error .invalidInput
  else if seq.length ≠ ws.length then .error .invalidInput
  else do
    let p1 ← add_sequence (init_graph seq) seq ws 0 seq.length
    topological_sort
      { p1.1 with sequences_start_nodes_ids := [p1.2], num_sequences := 1 }

/-- createGraph with a uniform weight (graph.cpp lines 17-20). -/
def createGraphUniform (seq : List Char) (w : ℤ) : Except Err Graph :=
  createGraph seq (List.replicate seq.length w)

/-- Append b to the aligned list of node a (nodes_[a]->add_aligned_node_id(b)). -/
def push_aligned (g : Graph) (a b : Nat) : Graph :=
  { g with nodes := g.nodes.map (fun nd =>
      if nd.id == a then { nd with aligned_nodes_ids := nd.aligned_nodes_ids ++ [b] }
      else nd) }

/-- Linking of a freshly created variant node (graph.cpp lines 252-258):
symmetric links to every node of the existing node's aligned set, then to
the existing node itself.  aligned is the snapshot of that set. -/
def link_aligned (g : Graph) (new_id : Nat) (aligned : List Nat) (node_id : Nat) :
    Graph :=
  let g1 := aligned.foldl (fun acc aid => push_aligned (push_aligned acc new_id aid) aid new_id) g
  push_aligned (push_aligned g1 new_id node_id) node_id new_id

/-- Search of the aligned set for a node carrying the wanted letter
(graph.cpp lines 241-247). -/
def find_aligned_letter (g : Graph) (aligned : List Nat) (letter : Char) :
    Option Nat :=
  aligned.find? (fun aid => (g.nodes.getD aid default).letter == letter)

/-- Resolution of one correspondence column to a node id (graph.cpp lines
230-262): a fresh primary node when node_id is -1, the matched node when
the letters agree, an aligned node carrying the letter if one exists, and
otherwise a fresh variant node linked into the aligned clique. -/
def aa_resolve (g : Graph) (nid : Int) (letter : Char) :
    Except Err (Graph × Int) :=
  if nid == -1 then
    let p := add_node g letter 0
    Except.ok (p.1, (p.2 : Int))
  else do
    let node ← idxNode g nid
    if node.letter == letter then Except.ok (g, nid)
    else
      match find_aligned_letter g node.aligned_nodes_ids letter with
      | some aid => Except.ok (g, (aid : Int))
      | none =>
        let p := add_node g letter 1
        Except.ok (link_aligned p.1 p.2 node.aligned_nodes_ids (u32 nid), (p.2 : Int))

/-- Edge from the running head to the freshly resolved node (graph.cpp
lines 268-271): only when a head exists. -/
def aa_edge (g : Graph) (head new_id : Int) (w : ℤ) : Except Err Graph :=
  if head != -1 then add_edge g (u32 head) (u32 new_id) w
  else Except.ok g

/-- Body of the alignment merge loop (graph.cpp lines 226-276), folded
over the correspondence columns.  State: (graph, start_node_id,
head_node_id, prev_weight). -/
def aa_loop (seq : List Char) (ws : List ℤ) :
    List (Int × Int) → Graph → Int → Int → ℤ →
    Except Err (Graph × Int × Int × ℤ)
  | [], g, start, head, prevw => .ok (g, start, head, prevw)
  | (nid, sid) :: rest, g, start, head, prevw =>
    if sid == -1 then aa_loop seq ws rest g start head prevw
    else do
      let letter ← idxChar seq sid
      let p1 ← aa_resolve g nid letter
      let start' := if start == -1 then p1.2 else start
      let w2 ← idxW ws sid
      let g2 ← aa_edge p1.1 head p1.2 (prevw + w2)
      aa_loop seq ws rest g2 start' p1.2 w2

/-- Graph::add_alignment (graph.cpp lines 185-287).  The asserts on the
inputs are modelled as InvalidInput; front() of an empty valid_seq_ids
vector (possible when every seq_id is -1) is undefined behaviour,
modelled as a trap. -/
def aa_prevw (ws : List ℤ) (head0 vfront : Int) : Except Err ℤ :=
  if head0 == -1 then Except.ok (0 : ℤ) else idxW ws (vfront - 1)

/-- Edge from the alignment's last node to the trailing chain (graph.cpp
lines 278-282): only when a tail chain exists. -/
def aa_tail_edge (g : Graph) (tail head : Int) (prevw : ℤ) (ws : List ℤ)
    (vback : Int) : Except Err Graph :=
  if tail != -1 then do
    let wt ← idxW ws ((u32 vback : Int) + 1)
    add_edge g (u32 head) (u32 tail) (prevw + wt)
  else Except.ok g

/-- Bookkeeping after a sequence has been threaded into the graph
(graph.cpp lines 283-286): sequence count, start node, dirty flag. -/
def aa_finish (g : Graph) (start : Int) : Graph :=
  { g with num_sequences := g.num_sequences + 1,
           sequences_start_nodes_ids := g.sequences_start_nodes_ids ++ [start],
           is_sorted := false }

def add_alignment (g : Graph) (node_ids seq_ids : List Int)
    (seq : List Char) (ws : List ℤ) : Except Err Graph :=
  if seq.length = 0 then .error .invalidInput
  else if seq.length ≠ ws.length then .error .invalidInput
  else if node_ids.length ≠ seq_ids.length then .error .invalidInput
  else if ¬ (node_ids.all int32able ∧ seq_ids.all int32able) then .error .invalidInput
  else
    let g := { g with alphabet := seq.foldl set_insert g.alphabet }
    if seq_ids.length = 0 then do
      let p1 ← add_sequence g seq ws 0 seq.length
      topological_sort (aa_finish p1.1 p1.2)
    else
      let valid := seq_ids.filter (fun x => x != -1)
      if valid.isEmpty then .error .oobRead
      else do
        let vfront := valid.headD (-1)
        let vback := valid.getLastD (-1)
        let tmp := g.num_nodes
        let p1 ← add_sequence g seq ws 0 (u32 vfront)
        let head0 : Int := if tmp == p1.1.num_nodes then -1
                           else ((p1.1.num_nodes - 1 : Nat) : Int)
        let p2 ← add_sequence p1.1 seq ws (u32 vback + 1) seq.length
        let prevw0 ← aa_prevw ws head0 vfront
        let q ← aa_loop seq ws (node_ids.zip seq_ids) p2.1 p1.2 head0 prevw0
        let g4 ← aa_tail_edge q.1 p2.2 q.2.2.1 q.2.2.2 ws vback
        topological_sort (aa_finish g4 q.2.1)

/-- Graph::visit_node_rigorously (graph.cpp lines 120-150): like
visit_node, but a primary (type 0) node additionally recurses into its
aligned alternates and then emits itself followed by all of them; a
variant (type 1) node is left temporarily marked and unemitted, to be
emitted by its primary. -/
def visit_node_rig (g : Graph) : Nat → List Nat × List Nat → Nat →
    Except Err (List Nat × List Nat)
  | 0, _, _ => .error .fuelExhausted
  | fuel + 1, (dst, marks), node_id =>
    if marks.getD node_id 0 == 1 then .error .graphCorruption
    else if marks.getD node_id 0 == 0 then do
      let node := g.nodes.getD node_id default
      let st2 ← ((in_edges g node_id).map (fun e => e.begin_node_id)).foldlM
          (fun st v => visit_node_rig g fuel st v) (dst, marks.set node_id 1)
      let st3 ←
        if node.type == 0 then
          node.aligned_nodes_ids.foldlM (fun st v => visit_node_rig g fuel st v) st2
        else .ok st2
      if node.type == 0 then
        .ok (node.aligned_nodes_ids.foldl
              (fun st aid => (st.1 ++ [aid], st.2.set aid 2))
              (st3.1 ++ [node_id], st3.2.set node_id 2))
      else .ok st3
    else .ok (dst, marks)

/-- Root loop of the rigorous sort (graph.cpp lines 316-318). -/
def rigorous_go (g : Graph) : List Nat → List Nat → List Nat →
    Except Err (List Nat × List Nat)
  | [], dst, marks => .ok (dst, marks)
  | v :: rest, dst, marks =>
    match visit_node_rig g (g.num_nodes + 1) (dst, marks) v with
    | .error er => .error er
    | .ok (dst', marks') => rigorous_go g rest dst' marks'

/-- Rigorous topological sort at the start of Graph::generate_msa
(graph.cpp lines 311-318): visit every node of the cached order. -/
def rigorous_pass (g : Graph) : Except Err (List Nat) :=
  match rigorous_go g g.sorted_nodes_ids [] (List.replicate g.num_nodes 0) with
  | .error er => .error er
  | .ok (dst, _) => .ok dst

/-- Column-index assignment (graph.cpp lines 323-336): walk the rigorous
order; each primary node opens a column and the immediately following
aligned.size() entries receive the same column; running past the end of
the order (sorted_nodes_ids_[++i] out of range) is undefined behaviour,
modelled as a trap.  Returns the msa_node_ids array (indexed by node id)
and the final base counter.  Each step consumes at least one entry of
the order, so fuel equal to its length suffices; recursion on the fuel
is structural. -/
def assign_msa (g : Graph) : Nat → List Nat → Nat → List Int →
    Except Err (List Int × Nat)
  | _, [], c, acc => .ok (acc, c)
  | 0, _ :: _, _, _ => .error .fuelExhausted
  | fuel + 1, node_id :: rest, c, acc =>
    if (g.nodes.getD node_id default).type == 0 then
      let k := (g.nodes.getD node_id default).aligned_nodes_ids.length
      if k ≤ rest.length then
        let acc1 := (rest.take k).foldl (fun a aid => a.set aid (c : Int))
          (acc.set node_id (c : Int))
        assign_msa g fuel (rest.drop k) (c + 1) acc1
      else .error .oobRead
    else assign_msa g fuel rest c acc

/-- One row-filling step (graph.cpp line 346): place the node's letter at
its column; a column of -1 (node never assigned a column) indexes the
string at (size_t)(-1), undefined behaviour, modelled as a trap. -/
def put_letter (g : Graph) (msa_ids : List Int) (row : List Char) (id : Nat) :
    Except Err (List Char) :=
  let c := msa_ids.getD id (-1)
  if 0 ≤ c ∧ c.toNat < row.length then
    .ok (row.set c.toNat (g.nodes.getD id default).letter)
  else .error .oobRead

/-- Successor search of the row walk (graph.cpp lines 348-359): the first
out-edge whose sequence labels contain i and whose end differs from the
current node. -/
def next_on_path (g : Graph) (i : Nat) (curr : Nat) : Option Nat :=
  match (out_edges g curr).find?
      (fun e => e.sequence_labels.contains i && e.end_node_id != curr) with
  | some e => some e.end_node_id
  | none => none

/-- Row walk of one sequence (graph.cpp lines 345-364). -/
def walk_row (g : Graph) (i : Nat) (msa_ids : List Int) :
    Nat → Nat → List Char → Except Err (List Char)
  | 0, _, _ => .error .fuelExhausted
  | fuel + 1, curr, row => do
    let row' ← put_letter g msa_ids row curr
    match next_on_path g i curr with
    | none => .ok row'
    | some nxt => walk_row g i msa_ids fuel nxt row'

/-- Build the rows of all sequences (graph.cpp lines 341-367). -/
def msa_rows (g : Graph) (msa_ids : List Int) (basec : Nat) :
    List Nat → Except Err (List (List Char))
  | [] => .ok []
  | i :: rest => do
    let row ← walk_row g i msa_ids (g.num_nodes + 1)
      (u32 (g.sequences_start_nodes_ids.getD i 0)) (List.replicate basec '-')
    let rows ← msa_rows g msa_ids basec rest
    .ok (row :: rows)

/-- Consensus row (graph.cpp lines 369-377). -/
def consensus_row (g : Graph) (msa_ids : List Int) (basec : Nat)
    (cons : List Nat) : Except Err (List Char) :=
  cons.foldlM (fun row id => put_letter g msa_ids row id)
    (List.replicate basec '-')

/-- In-edge loop of the longest-path scan (graph.cpp lines 412-420).
State: the scores and predecessors arrays, updated in place exactly as
the C++ does.  The tie-break reads scores[predecessors[node_id]]; when
predecessors[node_id] is still -1 this indexes the vector at
(size_t)(-1), undefined behaviour, modelled as a trap. -/
def hb_inner (node_id : Nat) :
    List Edge → List ℤ → List Int → Except Err (List ℤ × List Int)
  | [], scores, preds => .ok (scores, preds)
  | e :: rest, scores, preds =>
    let s := scores.getD node_id 0
    if s < e.total_weight then
      hb_inner node_id rest (scores.set node_id e.total_weight)
        (preds.set node_id (e.begin_node_id : Int))
    else if s == e.total_weight then do
      let ps ← idxW scores (preds.getD node_id (-1))
      if ps ≤ scores.getD e.begin_node_id 0 then
        hb_inner node_id rest (scores.set node_id e.total_weight)
          (preds.set node_id (e.begin_node_id : Int))
      else hb_inner node_id rest scores preds
    else hb_inner node_id rest scores preds

/-- Per-node step of the scan (graph.cpp lines 412-424): in-edge loop,
then add the chosen predecessor's accumulated score. -/
def hb_scan_node (g : Graph) (node_id : Nat) (scores : List ℤ) (preds : List Int) :
    Except Err (List ℤ × List Int) := do
  let (scores1, preds1) ← hb_inner node_id (in_edges g node_id) scores preds
  let p := preds1.getD node_id (-1)
  if p != -1 then
    .ok (scores1.set node_id (scores1.getD node_id 0 + scores1.getD (u32 p) 0), preds1)
  else .ok (scores1, preds1)

/-- Main scan of Graph::traverse_heaviest_bundle (graph.cpp lines
407-429) over the topological order, tracking the id with the maximum
score (strict improvement only, line 426). -/
def hb_scan (g : Graph) :
    List Nat → List ℤ → List Int → Nat → Except Err (List ℤ × List Int × Nat)
  | [], scores, preds, maxid => .ok (scores, preds, maxid)
  | node_id :: rest, scores, preds, maxid => do
    let (scores1, preds1) ← hb_scan_node g node_id scores preds
    let maxid' := if scores1.getD maxid 0 < scores1.getD node_id 0 then node_id else maxid
    hb_scan g rest scores1 preds1 maxid'

/-- Score invalidation at the bifurcation (graph.cpp lines 459-465):
every sibling predecessor of each successor of node_id gets score -1. -/
def bc_invalidate (g : Graph) (scores : List ℤ) (node_id : Nat) : List ℤ :=
  (out_edges g node_id).foldl (fun sc e =>
    (in_edges g e.end_node_id).foldl (fun sc' oe =>
      if oe.begin_node_id ≠ node_id then sc'.set oe.begin_node_id (-1) else sc') sc)
    scores

/-- In-edge loop of the branch-completion rescan (graph.cpp lines
475-487): predecessors whose score was invalidated are skipped; the
tie-break is the same guarded read as in hb_inner. -/
def bc_inner (node_id : Nat) :
    List Edge → List ℤ → List Int → Except Err (List ℤ × List Int)
  | [], scores, preds => .ok (scores, preds)
  | e :: rest, scores, preds =>
    if scores.getD e.begin_node_id 0 == -1 then bc_inner node_id rest scores preds
    else
      let s := scores.getD node_id 0
      if s < e.total_weight then
        bc_inner node_id rest (scores.set node_id e.total_weight)
          (preds.set node_id (e.begin_node_id : Int))
      else if s == e.total_weight then do
        let ps ← idxW scores (preds.getD node_id (-1))
        if ps ≤ scores.getD e.begin_node_id 0 then
          bc_inner node_id rest (scores.set node_id e.total_weight)
            (preds.set node_id (e.begin_node_id : Int))
        else bc_inner node_id rest scores preds
      else bc_inner node_id rest scores preds

/-- Rescan of the suffix after the bifurcation rank (graph.cpp lines
469-497), with its own (max_score, max_score_id) tracking initialised to
(0, 0). -/
def bc_scan (g : Graph) :
    List Nat → List ℤ → List Int → ℤ → Nat → Except Err (List ℤ × List Int × Nat)
  | [], scores, preds, _, maxid => .ok (scores, preds, maxid)
  | node_id :: rest, scores, preds, maxs, maxid => do
    let scores0 := scores.set node_id (-1)
    let preds0 := preds.set node_id (-1)
    let (scores1, preds1) ← bc_inner node_id (in_edges g node_id) scores0 preds0
    let p := preds1.getD node_id (-1)
    let scores2 :=
      if p != -1 then scores1.set node_id (scores1.getD node_id 0 + scores1.getD (u32 p) 0)
      else scores1
    if maxs < scores2.getD node_id 0 then
      bc_scan g rest scores2 preds1 (scores2.getD node_id 0) node_id
    else
      bc_scan g rest scores2 preds1 maxs maxid

/-- Graph::branch_completion (graph.cpp lines 455-500). -/
def branch_completion (g : Graph) (scores : List ℤ) (preds : List Int)
    (rank : Nat) : Except Err (List ℤ × List Int × Nat) :=
  let node_id := g.sorted_nodes_ids.getD rank 0
  let scores1 := bc_invalidate g scores node_id
  bc_scan g (g.sorted_nodes_ids.drop (rank + 1)) scores1 preds 0 0

/-- node_id_to_rank map (graph.cpp lines 433-436). -/
def mk_rank (g : Graph) : List Nat :=
  (List.range g.num_nodes).foldl
    (fun acc i => acc.set (g.sorted_nodes_ids.getD i 0) i)
    (List.replicate g.num_nodes 0)

/-- Branch-completion loop (graph.cpp lines 438-441): repeat while the
best node still has outgoing edges.  The C++ has no iteration bound; the
fuel makes nontermination observable. -/
def hb_loop (g : Graph) (rankmap : List Nat) :
    Nat → List ℤ → List Int → Nat → Except Err (List ℤ × List Int × Nat)
  | 0, _, _, _ => .error .fuelExhausted
  | fuel + 1, scores, preds, maxid =>
    if (out_edges g maxid).length == 0 then .ok (scores, preds, maxid)
    else do
      let (s, p, m) ← branch_completion g scores preds (rankmap.getD maxid 0)
      hb_loop g rankmap fuel s p m

/-- Traceback (graph.cpp lines 445-452): follow predecessors from the
final best node, then reverse. -/
def traceback (preds : List Int) :
    Nat → Nat → List Nat → Except Err (List Nat)
  | 0, _, _ => .error .fuelExhausted
  | fuel + 1, id, acc =>
    let p := preds.getD id (-1)
    if p == -1 then .ok ((acc ++ [id]).reverse)
    else traceback preds fuel (u32 p) (acc ++ [id])

/-- Graph::traverse_heaviest_bundle (graph.cpp lines 405-453). -/
def traverse_heaviest_bundle (g : Graph) : Except Err Graph := do
  let (scores, preds, maxid) ←
    hb_scan g g.sorted_nodes_ids (List.replicate g.num_nodes 0)
      (List.replicate g.num_nodes (-1)) 0
  let (_, preds', maxid') ←
    if (out_edges g maxid).length ≠ 0 then
      hb_loop g (mk_rank g) (g.num_nodes + 1) scores preds maxid
    else Except.ok (scores, preds, maxid)
  let cons ← traceback preds' (g.num_nodes + 1) maxid' []
  .ok { g with consensus := cons }

/-- Graph::generate_consensus (graph.cpp lines 394-403): heaviest-bundle
traversal, then the letters along the stored consensus path. -/
def generate_consensus (g : Graph) : Except Err (List Char) := do
  let g' ← traverse_heaviest_bundle g
  .ok (g'.consensus.map (fun id => (g'.nodes.getD id default).letter))

/-- Graph::generate_msa (graph.cpp lines 309-379).  The discarded
is_topologically_sorted() call at line 321 still runs its internal size
assert, modelled as the length check. -/
def generate_msa (g : Graph) (include_consensus : Bool) :
    Except Err (List (List Char)) := do
  let rig ← rigorous_pass g
  if g.num_nodes = rig.length then do
    let (msa_ids, basec) ← assign_msa g rig.length rig 0 (List.replicate g.num_nodes (-1))
    let rows ← msa_rows g msa_ids basec (List.range g.num_sequences)
    if include_consensus then do
      let g' ← traverse_heaviest_bundle g
      let crow ← consensus_row g' msa_ids basec g'.consensus
      .ok (rows ++ [crow])
    else .ok rows
  else .error .assertFailed

/-- a and b are joined by a directed edge. -/
def edgeRel (g : Graph) (a b : Nat) : Prop :=
  ∃ e, e ∈ g.edges ∧ e.begin_node_id = a ∧ e.end_node_id = b

/-- The graph contains a directed cycle. -/
def Cyclic (g : Graph) : Prop :=
  ∃ v, Relation.TransGen (edgeRel g) v v

/-- Ordered endpoint pairs of all edges, in creation order. -/
def edgePairs (g : Graph) : List (Nat × Nat) :=
  g.edges.map (fun e => (e.begin_node_id, e.end_node_id))

/-- Aligned set of a node id. -/
def al (g : Graph) (a : Nat) : List Nat :=
  (g.nodes.getD a default).aligned_nodes_ids

/-- Node ids are dense: the node stored at position i has id i. -/
def DenseIds (g : Graph) : Prop :=
  ∀ i, i < g.num_nodes → nodeIdAt g i = i

/-- Every edge endpoint is a valid node id. -/
def EdgesBounded (g : Graph) : Prop :=
  ∀ e ∈ g.edges, e.begin_node_id < g.num_nodes ∧ e.end_node_id < g.num_nodes

/-- Every aligned-node reference is a valid node id. -/
def AlignedBounded (g : Graph) : Prop :=
  ∀ x : Nat, ∀ a ∈ al g x, a < g.num_nodes

/-- Structural well-formedness of a graph state. -/
def WF (g : Graph) : Prop :=
  DenseIds g ∧ EdgesBounded g ∧ AlignedBounded g

/-- The cached order is a valid linearization: it lists every node
exactly once (by counting) and every edge goes forward in it.  All
conjuncts are decidable, so concrete instances evaluate. -/
def ValidOrder (g : Graph) : Prop :=
  g.sorted_nodes_ids.Nodup ∧
  g.sorted_nodes_ids.length = g.num_nodes ∧
  (∀ id ∈ g.sorted_nodes_ids, id < g.num_nodes) ∧
  ∀ e ∈ g.edges,
    g.sorted_nodes_ids.indexOf e.begin_node_id <
    g.sorted_nodes_ids.indexOf e.end_node_id

instance validOrderDec (g : Graph) : Decidable (ValidOrder g) := by
  unfold ValidOrder
  infer_instance

/-- Every edge carries a strictly positive total weight. -/
def PosWeights (g : Graph) : Prop :=
  ∀ e ∈ g.edges, 0 < e.total_weight

/-- Shape invariant of the DFS mark array: sized by the node count and
holding only the three colors 0, 1, 2. -/
def MarksOk (g : Graph) (marks : List Nat) : Prop :=
  marks.length = g.num_nodes ∧ ∀ i, marks.getD i 0 ≤ 2

/-- Relation between the input and output state of one ok DFS visit:
the output order extends the input order, marks never decrease, and the
set of temporarily marked nodes is unchanged. -/
def VisitPost (dst marks dst' marks' : List Nat) : Prop :=
  (∃ t, dst' = dst ++ t) ∧
  marks'.length = marks.length ∧
  (∀ i, marks.getD i 0 ≤ marks'.getD i 0) ∧
  (∀ i, marks'.getD i 0 = 1 ↔ marks.getD i 0 = 1)

/-- Invariant tying the DFS mark array to the emitted order. -/
structure DfsInv (g : Graph) (dst marks : List Nat) : Prop where
  mem2 : ∀ i, marks.getD i 0 = 2 ↔ i ∈ dst
  nodup : dst.Nodup
  bounded : ∀ i ∈ dst, i < g.num_nodes
  fwd : ∀ e ∈ g.edges, ∀ k, (hk : k < dst.length) →
    dst.get ⟨k, hk⟩ = e.end_node_id → e.begin_node_id ∈ dst.take k

/-- Number of unmarked nodes. -/
def zeroCard (g : Graph) (marks : List Nat) : Nat :=
  ((Finset.range g.num_nodes).filter (fun i => marks.getD i 0 = 0)).card

/-- Gray-path hypothesis of the DFS: every temporarily marked node is
reachable from the node about to be visited. -/
def GrayHyp (g : Graph) (marks : List Nat) (v : Nat) : Prop :=
  ∀ u, marks.getD u 0 = 1 → Relation.TransGen (edgeRel g) v u

/-- Invariant of the heaviest-bundle scan state: the scores array is
sized by the node count and non-negative, every chosen predecessor is a
valid node id, and a node without a chosen predecessor still has its
initial score 0. -/
def HbInv (g : Graph) (scores : List ℤ) (preds : List Int) : Prop :=
  scores.length = g.num_nodes ∧ preds.length = g.num_nodes ∧
  (∀ i : Nat, 0 ≤ scores.getD i 0) ∧
  (∀ i : Nat, preds.getD i (-1) = -1 ∨
    (0 ≤ preds.getD i (-1) ∧ (preds.getD i (-1)).toNat < g.num_nodes)) ∧
  (∀ i : Nat, preds.getD i (-1) = -1 → scores.getD i 0 = 0)

/-- Graph states produced by the public construction API: an initial
createGraph followed by any number of successful add_alignment calls. -/
inductive Reachable : Graph → Prop where
  | base : ∀ seq ws g, createGraph seq ws = .ok g → Reachable g
  | step : ∀ g node_ids seq_ids seq ws g', Reachable g →
      add_alignment g node_ids seq_ids seq ws = .ok g' → Reachable g'

/-! Concrete scenario graphs used by the claims. -/

/-- Scenario of §8: insert ACGT with uniform weight 1. -/
def c1base : Except Err Graph := createGraphUniform ("ACGT".toList) 1

/-- Scenario of §8 continued: merge ACCT via the correspondence that
matches positions 0,1,3 to nodes 0,1,3 and mismatches at position 2. -/
def c1merged : Except Err Graph :=
  c1base.bind (fun g =>
    add_alignment g [0, 1, 2, 3] [0, 1, 2, 3] ("ACCT".toList) (List.replicate 4 1))

/-- Acyclic graph reachable through two alignment merges on which the
rigorous sort trips its DAG assertion: AB, then AX (X inserted after A),
then AYB aligning Y against X and B against the old B node. -/
def c3graph : Except Err Graph :=
  (createGraphUniform ("AB".toList) 1).bind (fun g =>
  (add_alignment g [0, -1] [0, 1] ("AX".toList) (List.replicate 2 1)).bind (fun g' =>
  add_alignment g' [0, 2, 1] [0, 1, 2] ("AYB".toList) (List.replicate 3 1)))

/-- Hand-built finite DAG with a negative-weight edge on which
branch_completion moves backwards: 0 -> 1 (weight 5), 1 -> 2 (weight -5). -/
def gNeg : Graph :=
  { num_sequences := 2,
    nodes := [⟨0, 'A', 0, []⟩, ⟨1, 'B', 0, []⟩, ⟨2, 'C', 0, []⟩],
    edges := [⟨0, 1, [0], 5⟩, ⟨1, 2, [1], -5⟩],
    alphabet := ['A', 'B', 'C'],
    is_sorted := true,
    sorted_nodes_ids := [0, 1, 2],
    sequences_start_nodes_ids := [0, 0],
    consensus := [] }

/-- Sequence AB inserted with uniform weight 0: every edge has total
weight 0. -/
def gZero : Except Err Graph := createGraphUniform ("AB".toList) 0

/-- Rank of a node in the cached topological order. -/
def rankOf (g : Graph) (id : Nat) : Nat := g.sorted_nodes_ids.indexOf id

/-- Extraction of the graph of a successful construction. -/
def okD (x : Except Err Graph) (d : Graph) : Graph :=
  match x with
  | .ok g => g
  | .error _ => d

/-- The graph of the two-sequence consensus scenario. -/
def c1g : Graph := okD c1merged gNeg

/-- The graph of the first inserted sequence of the §8 scenario. -/
def c1ga : Graph := okD c1base gNeg

/-- The graph of the zero-weight insertion. -/
def gZ : Graph := okD gZero gNeg

/-- Hand-built two-node graph with a directed 2-cycle 0 -> 1 -> 0, not
yet sorted: the cycle-detection scenario. -/
def gCyc : Graph :=
  { num_sequences := 1,
    nodes := [⟨0, 'A', 0, []⟩, ⟨1, 'B', 0, []⟩],
    edges := [⟨0, 1, [0], 1⟩, ⟨1, 0, [0], 1⟩],
    alphabet := ['A', 'B'],
    is_sorted := false,
    sorted_nodes_ids := [],
    sequences_start_nodes_ids := [0],
    consensus := [] }

/-- Intermediate graphs of the c3graph construction. -/
def c3g1 : Graph := okD (createGraphUniform ("AB".toList) 1) gNeg

def c3g2 : Graph :=
  okD (add_alignment c3g1 [0, -1] [0, 1] ("AX".toList) (List.replicate 2 1)) gNeg

/-- The final graph of the c3graph construction. -/
def c3g : Graph := okD c3graph gNeg

/-- Invariant of the aligned-node relation: irreflexive, symmetric and
transitively closed (aligned groups are cliques). -/
def AlignedInv (g : Graph) : Prop :=
  (∀ a, a ∉ al g a) ∧
  (∀ a b, b ∈ al g a → a ∈ al g b) ∧
  (∀ a b c, b ∈ al g a → c ∈ al g b → c ≠ a → c ∈ al g a)

/-- Combined structural invariant preserved by every mutation. -/
def GInv (g : Graph) : Prop := WF g ∧ (edgePairs g).Nodup ∧ AlignedInv g

/-- Induction statement for one DFS visit. -/
def NodeStmt (g : Graph) (fuel : Nat) : Prop :=
  ∀ dst marks v dst' marks',
    visit_node g fuel (dst, marks) v = .ok (dst', marks') →
    MarksOk g marks →
    VisitPost dst marks dst' marks' ∧ MarksOk g marks' ∧
    (v < g.num_nodes → marks'.getD v 0 = 2) ∧
    (v < g.num_nodes → DfsInv g dst marks → DfsInv g dst' marks')

/-- Induction statement for the DFS loop over a list of nodes. -/
def FoldStmt (g : Graph) (fuel : Nat) : Prop :=
  ∀ (l dst marks dst' marks' : List Nat),
    l.foldlM (fun st u => visit_node g fuel st u) (dst, marks) = .ok (dst', marks') →
    MarksOk g marks →
    VisitPost dst marks dst' marks' ∧ MarksOk g marks' ∧
    (∀ u ∈ l, u < g.num_nodes → marks'.getD u 0 = 2) ∧
    ((∀ u ∈ l, u < g.num_nodes) → DfsInv g dst marks → DfsInv g dst' marks')

/-- Success/corruption dichotomy statement for one DFS visit: with enough
fuel the visit either succeeds or reports the cycle it ran into. -/
def NodeOkStmt (g : Graph) (fuel : Nat) : Prop :=
  ∀ (dst marks : List Nat) (v : Nat), MarksOk g marks → GrayHyp g marks v →
    zeroCard g marks < fuel →
    (∃ st', visit_node g fuel (dst, marks) v = .ok st') ∨
    (visit_node g fuel (dst, marks) v = .error .graphCorruption ∧ Cyclic g)

/-- Success/corruption dichotomy statement for the DFS loop over a list
of nodes. -/
def FoldOkStmt (g : Graph) (fuel : Nat) : Prop :=
  ∀ (l dst marks : List Nat), MarksOk g marks →
    (∀ p ∈ l, GrayHyp g marks p) →
    zeroCard g marks < fuel →
    (∃ st', l.foldlM (fun st u => visit_node g fuel st u) (dst, marks) = .ok st') ∨
    (l.foldlM (fun st u => visit_node g fuel st u) (dst, marks) = .error .graphCorruption ∧ Cyclic g)

/-! Generic helper lemmas. -/

theorem visitPost_refl (dst marks : List Nat) : VisitPost dst marks dst marks :=
  ⟨⟨[], by simp⟩, rfl, fun _ => le_refl _, fun _ => Iff.rfl⟩

theorem visitPost_trans {d1 m1 d2 m2 d3 m3 : List Nat}
    (h1 : VisitPost d1 m1 d2 m2) (h2 : VisitPost d2 m2 d3 m3) :
    VisitPost d1 m1 d3 m3 := by
  obtain ⟨⟨t1, ht1⟩, hl1, hm1, hg1⟩ := h1
  obtain ⟨⟨t2, ht2⟩, hl2, hm2, hg2⟩ := h2
  exact ⟨⟨t1 ++ t2, by rw [ht2, ht1, List.append_assoc]⟩, hl2.trans hl1,
    fun i => (hm1 i).trans (hm2 i), fun i => (hg2 i).trans (hg1 i)⟩

theorem bind_ok {α β : Type} {x : Except Err α} {f : α → Except Err β} {b : β} :
    (x >>= f) = .ok b ↔ ∃ a, x = .ok a ∧ f a = .ok b := by
  cases x with
  | error e => simp [Bind.bind, Except.bind]
  | ok a => simp [Bind.bind, Except.bind]

theorem getD_set_cases {α : Type} (l : List α) (v i : Nat) (x d : α) :
    (l.set v x).getD i d = if v = i ∧ v < l.length then x else l.getD i d := by
  rw [List.getD_eq_getElem?_getD, List.getElem?_set]
  by_cases hvi : v = i
  · subst hvi
    by_cases hl : v < l.length
    · simp [hl]
    · simp [hl, List.getElem?_eq_none (Nat.le_of_not_lt hl)]
  · simp [hvi, ← List.getD_eq_getElem?_getD]

theorem mem_in_edges {g : Graph} {e : Edge} {v : Nat} :
    e ∈ in_edges g v ↔ e ∈ g.edges ∧ e.end_node_id = v := by
  simp [in_edges, List.mem_filter]

theorem mem_out_edges {g : Graph} {e : Edge} {v : Nat} :
    e ∈ out_edges g v ↔ e ∈ g.edges ∧ e.begin_node_id = v := by
  simp [out_edges, List.mem_filter]

theorem dfs_fold_of_node (g : Graph) (fuel : Nat) (hN : NodeStmt g fuel) :
    FoldStmt g fuel := by
  intro l
  induction l with
  | nil =>
    intro dst marks dst' marks' hok hm
    simp only [List.foldlM_nil, pure, Except.pure, Except.ok.injEq] at hok
    obtain ⟨rfl, rfl⟩ := Prod.mk.injEq .. ▸ hok
    exact ⟨visitPost_refl _ _, hm, by simp, fun _ h => h⟩
  | cons u rest ih =>
    intro dst marks dst' marks' hok hm
    rw [List.foldlM_cons] at hok
    cases hv : visit_node g fuel (dst, marks) u with
    | error er => rw [hv] at hok; exact absurd hok (by simp [Bind.bind, Except.bind])
    | ok st1 =>
      rw [hv] at hok
      simp only [Bind.bind, Except.bind] at hok
      obtain ⟨d1, m1⟩ := st1
      have h1 := hN dst marks u d1 m1 hv hm
      have h2 := ih d1 m1 dst' marks' hok h1.2.1
      refine ⟨visitPost_trans h1.1 h2.1, h2.2.1, ?_, ?_⟩
      · intro w hw hwn
        rcases List.mem_cons.mp hw with rfl | hw'
        · have hm1u : m1.getD w 0 = 2 := h1.2.2.1 hwn
          have hmono := h2.1.2.2.1 w
          have hle := h2.2.1.2 w
          omega
        · exact h2.2.2.1 w hw' hwn
      · intro hall hinv
        exact h2.2.2.2 (fun w hw => hall w (List.mem_cons.mpr (Or.inr hw)))
          (h1.2.2.2 (hall u (List.mem_cons.mpr (Or.inl rfl))) hinv)

theorem getD_set_self {l : List Nat} {i : Nat} {x d : Nat} (h : i < l.length) :
    (l.set i x).getD i d = x := by
  rw [List.getD_eq_getElem?_getD, List.getElem?_set_self h]
  rfl

theorem getD_set_ne {α : Type} {l : List α} {i j : Nat} {x d : α} (h : i ≠ j) :
    (l.set i x).getD j d = l.getD j d := by
  rw [List.getD_eq_getElem?_getD, List.getElem?_set_ne h,
    ← List.getD_eq_getElem?_getD]

theorem dfs_node (g : Graph) (hwf : WF g) : ∀ fuel, NodeStmt g fuel := by
  intro fuel
  induction fuel with
  | zero =>
    intro dst marks v dst' marks' hok _
    exact absurd hok (by simp [visit_node])
  | succ fuel ih =>
    intro dst marks v dst' marks' hok hm
    rw [visit_node] at hok
    simp only [beq_iff_eq] at hok
    by_cases h1 : marks.getD v 0 = 1
    · rw [if_pos h1] at hok
      exact Except.noConfusion hok
    · rw [if_neg h1] at hok
      by_cases h0 : marks.getD v 0 = 0
      · rw [if_pos h0] at hok
        have hchild : ∀ u ∈ (in_edges g v).map (fun e => e.begin_node_id),
            u < g.num_nodes := by
          intro u hu
          simp only [List.mem_map] at hu
          obtain ⟨e, he, rfl⟩ := hu
          exact (hwf.2.1 e (mem_in_edges.mp he).1).1
        cases hf : ((in_edges g v).map (fun e => e.begin_node_id)).foldlM
            (fun st u => visit_node g fuel st u) (dst, marks.set v 1) with
        | error er =>
          rw [hf] at hok
          exact absurd hok (by simp [Bind.bind, Except.bind])
        | ok st2 =>
          rw [hf] at hok
          obtain ⟨d2, m2⟩ := st2
          simp only [Bind.bind, Except.bind, Except.ok.injEq, Prod.mk.injEq] at hok
          obtain ⟨hda, hmb⟩ := hok
          subst hda
          subst hmb
          have hm1 : MarksOk g (marks.set v 1) := by
            refine ⟨by rw [List.length_set]; exact hm.1, ?_⟩
            intro i
            rw [getD_set_cases]
            split
            · omega
            · exact hm.2 i
          have hfold := dfs_fold_of_node g fuel ih _ dst (marks.set v 1) d2 m2 hf hm1
          have hlen2 : m2.length = marks.length := by
            rw [hfold.1.2.1, List.length_set]
          have hmono2 : ∀ i, (marks.set v 1).getD i 0 ≤ m2.getD i 0 := hfold.1.2.2.1
          have hgray2 : ∀ i, m2.getD i 0 = 1 ↔ (marks.set v 1).getD i 0 = 1 :=
            hfold.1.2.2.2
          refine ⟨?_, ?_, ?_, ?_⟩
          · refine ⟨?_, ?_, ?_, ?_⟩
            · obtain ⟨t, ht⟩ := hfold.1.1
              exact ⟨t ++ [v], by rw [ht, List.append_assoc]⟩
            · rw [List.length_set, hlen2]
            · intro i
              rw [getD_set_cases]
              split
              · rename_i hc
                obtain ⟨heq, _⟩ := hc
                rw [← heq, h0]
                omega
              · have := hmono2 i
                rw [getD_set_cases] at this
                split at this
                · rename_i hc
                  obtain ⟨heq, _⟩ := hc
                  rw [← heq, h0]
                  omega
                · exact this
            · intro i
              rw [getD_set_cases]
              by_cases hiv : v = i
              · subst hiv
                constructor
                · intro hh
                  split at hh
                  · omega
                  · have := (hgray2 v).mp hh
                    rw [getD_set_cases] at this
                    split at this
                    · omega
                    · omega
                · intro hh
                  omega
              · simp only [hiv, false_and, if_false]
                rw [hgray2 i, getD_set_cases]
                simp [hiv]
          · refine ⟨by rw [List.length_set, hlen2]; exact hm.1, ?_⟩
            intro i
            rw [getD_set_cases]
            split
            · omega
            · exact hfold.2.1.2 i
          · intro hvn
            rw [getD_set_cases]
            have : v < m2.length := by rw [hlen2, hm.1]; exact hvn
            simp [this]
          · intro hvn hinv
            have hvlen : v < marks.length := by rw [hm.1]; exact hvn
            have hinv1 : DfsInv g dst (marks.set v 1) := by
              refine ⟨?_, hinv.nodup, hinv.bounded, hinv.fwd⟩
              intro i
              rw [getD_set_cases]
              split
              · rename_i hc
                constructor
                · intro hh
                  omega
                · intro hmem
                  have h2 := (hinv.mem2 i).mpr hmem
                  rw [← hc.1] at h2
                  omega
              · exact hinv.mem2 i
            have hinv2 := hfold.2.2.2 hchild hinv1
            have hvd2 : v ∉ d2 := by
              intro hvd
              have h2 : m2.getD v 0 = 2 := (hinv2.mem2 v).mpr hvd
              have h1' : m2.getD v 0 = 1 := by
                rw [hgray2 v, getD_set_cases]
                simp [hvlen]
              omega
            refine ⟨?_, ?_, ?_, ?_⟩
            · intro i
              rw [getD_set_cases]
              by_cases hiv : v = i
              · subst hiv
                have : v < m2.length := by rw [hlen2]; exact hvlen
                simp [this]
              · simp only [hiv, false_and, if_false]
                rw [hinv2.mem2 i, List.mem_append, List.mem_singleton]
                constructor
                · exact Or.inl
                · rintro (hh | rfl)
                  · exact hh
                  · exact absurd rfl hiv
            · rw [List.nodup_append]
              exact ⟨hinv2.nodup, List.nodup_singleton v,
                by simp [List.disjoint_singleton]; exact hvd2⟩
            · intro i hi
              rcases List.mem_append.mp hi with hh | hh
              · exact hinv2.bounded i hh
              · rw [List.mem_singleton] at hh
                subst hh
                exact hvn
            · intro e he k hk hget
              have hklen : k < d2.length + 1 := by
                simpa using hk
              rw [List.get_eq_getElem] at hget
              by_cases hkd : k < d2.length
              · rw [List.getElem_append_left hkd] at hget
                have := hinv2.fwd e he k hkd (by rw [List.get_eq_getElem]; exact hget)
                rw [List.take_append_of_le_length (le_of_lt hkd)]
                exact this
              · have hkeq : k = d2.length := by omega
                subst hkeq
                rw [List.getElem_append_right (le_refl _)] at hget
                simp at hget
                have hein : e ∈ in_edges g v := mem_in_edges.mpr ⟨he, hget.symm⟩
                have hbn : e.begin_node_id < g.num_nodes := (hwf.2.1 e he).1
                have h2b : m2.getD e.begin_node_id 0 = 2 :=
                  hfold.2.2.1 e.begin_node_id
                    (List.mem_map.mpr ⟨e, hein, rfl⟩) hbn
                have hmem : e.begin_node_id ∈ d2 := (hinv2.mem2 _).mp h2b
                rw [List.take_append_of_le_length (le_refl _)]
                simpa using hmem
      · have h2v : marks.getD v 0 = 2 := by
          have := hm.2 v
          omega
        rw [if_neg h0] at hok
        simp only [Except.ok.injEq, Prod.mk.injEq] at hok
        obtain ⟨rfl, rfl⟩ := hok
        exact ⟨visitPost_refl _ _, hm, fun _ => h2v, fun _ h => h⟩

theorem indexOf_lt_of_mem_take {a : Nat} :
    ∀ (l : List Nat) (k : Nat), a ∈ l.take k → l.indexOf a < k := by
  intro l
  induction l with
  | nil => intro k h; simp at h
  | cons b l' ih =>
    intro k h
    cases k with
    | zero => simp at h
    | succ k' =>
      rw [List.take_succ_cons] at h
      by_cases hab : a = b
      · subst hab
        rw [List.indexOf_cons_self]
        exact Nat.succ_pos _
      · rcases List.mem_cons.mp h with hh | hh
        · exact absurd hh hab
        · rw [List.indexOf_cons_ne _ (fun hc => hab hc.symm)]
          exact Nat.succ_lt_succ (ih k' hh)

/-- Scan lemma: a none result means every remaining position is marked. -/
theorem find_unmarked_none {g : Graph} {marks : List Nat} :
    ∀ rem i, find_unmarked g marks rem i = none →
    ∀ k, i ≤ k → k < i + rem → marks.getD (nodeIdAt g k) 0 ≠ 0 := by
  intro rem
  induction rem with
  | zero => intro i _ k h1 h2; omega
  | succ rem' ih =>
    intro i hnone k h1 h2
    rw [find_unmarked] at hnone
    by_cases hz : marks.getD (nodeIdAt g i) 0 = 0
    · rw [if_pos (by simpa using hz)] at hnone
      exact Option.noConfusion hnone
    · rw [if_neg (by simpa using hz)] at hnone
      by_cases hik : k = i
      · subst hik; exact hz
      · exact ih (i + 1) hnone k (by omega) (by omega)

/-- Scan lemma: a some result is the first unmarked position. -/
theorem find_unmarked_some {g : Graph} {marks : List Nat} :
    ∀ rem i j, find_unmarked g marks rem i = some j →
    i ≤ j ∧ j < i + rem ∧ marks.getD (nodeIdAt g j) 0 = 0 ∧
    ∀ k, i ≤ k → k < j → marks.getD (nodeIdAt g k) 0 ≠ 0 := by
  intro rem
  induction rem with
  | zero => intro i j h; simp [find_unmarked] at h
  | succ rem' ih =>
    intro i j hsome
    rw [find_unmarked] at hsome
    by_cases hz : marks.getD (nodeIdAt g i) 0 = 0
    · rw [if_pos (by simpa using hz)] at hsome
      obtain rfl := Option.some.injEq .. ▸ hsome
      exact ⟨le_refl _, by omega, hz, fun k h1 h2 => by omega⟩
    · rw [if_neg (by simpa using hz)] at hsome
      obtain ⟨h1, h2, h3, h4⟩ := ih (i + 1) j hsome
      refine ⟨by omega, by omega, h3, ?_⟩
      intro k hk1 hk2
      by_cases hki : k = i
      · subst hki; exact hz
      · exact h4 k (by omega) hk2

/-- No node is temporarily marked. -/
def NoGray (marks : List Nat) : Prop := ∀ u, marks.getD u 0 ≠ 1

/-- Main invariant lemma for the root loop of the topological sort. -/
theorem sort_loop_ok (g : Graph) (hwf : WF g) :
    ∀ fuel dst marks i dst',
    sort_loop g fuel dst marks i = .ok dst' →
    MarksOk g marks → DfsInv g dst marks → NoGray marks →
    (∀ k, k < i → marks.getD (nodeIdAt g k) 0 ≠ 0) →
    dst'.Nodup ∧ (∀ u ∈ dst', u < g.num_nodes) ∧
    (∀ id, id < g.num_nodes → id ∈ dst') ∧
    (∀ e ∈ g.edges, ∀ k, (hk : k < dst'.length) →
      dst'.get ⟨k, hk⟩ = e.end_node_id → e.begin_node_id ∈ dst'.take k) := by
  intro fuel
  induction fuel with
  | zero =>
    intro dst marks i dst' hok
    exact absurd hok (by simp [sort_loop])
  | succ fuel ih =>
    intro dst marks i dst' hok hm hinv hng hpre
    rw [sort_loop] at hok
    split at hok
    · rename_i hfind
      obtain rfl := Except.ok.injEq .. ▸ hok
      have hall2 : ∀ id, id < g.num_nodes → marks.getD id 0 = 2 := by
        intro id hid
        have hnid : nodeIdAt g id = id := hwf.1 id hid
        have hne : marks.getD id 0 ≠ 0 := by
          by_cases hii : id < i
          · have := hpre id hii
            rwa [hnid] at this
          · have := find_unmarked_none _ i hfind id (by omega) (by omega)
            rwa [hnid] at this
        have := hm.2 id
        have := hng id
        omega
      refine ⟨hinv.nodup, hinv.bounded, ?_, hinv.fwd⟩
      intro id hid
      exact (hinv.mem2 id).mp (hall2 id hid)
    · rename_i j hfind
      obtain ⟨hij, hjn, hjz, hjfirst⟩ := find_unmarked_some _ i j hfind
      have hjn' : j < g.num_nodes := by omega
      have hnid : nodeIdAt g j = j := hwf.1 j hjn'
      split at hok
      · exact Except.noConfusion hok
      · rename_i d1 m1 hv
        have hvn : nodeIdAt g j < g.num_nodes := by rw [hnid]; exact hjn'
        have hn := dfs_node g hwf (g.num_nodes + 1) dst marks (nodeIdAt g j)
          d1 m1 hv hm
        have hng1 : NoGray m1 := by
          intro u hu
          exact hng u ((hn.1.2.2.2 u).mp hu)
        have hpre1 : ∀ k, k < j → m1.getD (nodeIdAt g k) 0 ≠ 0 := by
          intro k hk
          have hmono := hn.1.2.2.1 (nodeIdAt g k)
          have hne : marks.getD (nodeIdAt g k) 0 ≠ 0 := by
            by_cases hki : k < i
            · exact hpre k hki
            · exact hjfirst k (by omega) hk
          omega
        exact ih d1 m1 j dst' hok hn.2.1 (hn.2.2.2 hvn hinv) hng1 hpre1

theorem getD_replicate (n i d : Nat) : (List.replicate n d).getD i d = d := by
  rw [List.getD_eq_getElem?_getD, List.getElem?_replicate]
  split <;> rfl

/-- The forward-closedness invariant makes the self-check succeed. -/
theorem topo_check_of_fwd (g : Graph) :
    ∀ (order visited : List Nat),
    (∀ e ∈ g.edges, ∀ k, (hk : k < order.length) →
      order.get ⟨k, hk⟩ = e.end_node_id →
      e.begin_node_id ∈ visited ∨ e.begin_node_id ∈ order.take k) →
    topo_check g visited order = true := by
  intro order
  induction order with
  | nil => intro visited _; rw [topo_check]
  | cons id rest ih =>
    intro visited hyp
    rw [topo_check]
    have hall : (in_edges g id).all (fun e => visited.contains e.begin_node_id)
        = true := by
      rw [List.all_eq_true]
      intro e he
      obtain ⟨heg, hend⟩ := mem_in_edges.mp he
      have h0 := hyp e heg 0 (by simp) (by simpa using hend.symm)
      rcases h0 with hh | hh
      · simpa using hh
      · simp at hh
    rw [if_pos hall]
    apply ih
    intro e he k hk hget
    have hsucc := hyp e he (k + 1) (by simpa using Nat.succ_lt_succ hk)
      (by simpa using hget)
    rcases hsucc with hh | hh
    · exact Or.inl (List.mem_cons.mpr (Or.inr hh))
    · rw [List.take_succ_cons] at hh
      rcases List.mem_cons.mp hh with rfl | hh'
      · exact Or.inl (List.mem_cons.mpr (Or.inl rfl))
      · exact Or.inr hh'

/-- Postcondition of Graph::topological_sort on an unsorted graph: the
returned graph carries a valid linearization and only the order fields
changed. -/
theorem topological_sort_valid {g g' : Graph} (hwf : WF g)
    (hs : g.is_sorted = false) (hok : topological_sort g = .ok g') :
    (∃ dst, g' = { g with sorted_nodes_ids := dst, is_sorted := true }) ∧
    ValidOrder g' := by
  rw [topological_sort, if_neg (by simp [hs])] at hok
  split at hok
  · exact Except.noConfusion hok
  · rename_i dst hloop
    have hm0 : MarksOk g (List.replicate g.num_nodes 0) :=
      ⟨List.length_replicate .., fun i => by rw [getD_replicate]; omega⟩
    have hinv0 : DfsInv g [] (List.replicate g.num_nodes 0) := by
      refine ⟨fun i => ?_, List.nodup_nil, by simp, by simp⟩
      rw [getD_replicate]
      simp
    have hng0 : NoGray (List.replicate g.num_nodes 0) := by
      intro u
      rw [getD_replicate]
      omega
    have hmain := sort_loop_ok g hwf (g.num_nodes + 1) [] _ 0 dst hloop hm0 hinv0
      hng0 (by omega)
    obtain ⟨hnd, hbd, hcomp, hfwd⟩ := hmain
    have hperm : dst.Perm (List.range g.num_nodes) := by
      refine (List.perm_ext_iff_of_nodup hnd (List.nodup_range _)).mpr ?_
      intro a
      rw [List.mem_range]
      exact ⟨fun h => hbd a h, fun h => hcomp a h⟩
    have hlen : dst.length = g.num_nodes := by
      rw [hperm.length_eq, List.length_range]
    have hfwd' : ∀ e ∈ g.edges,
        dst.indexOf e.begin_node_id < dst.indexOf e.end_node_id := by
      intro e he
      have hend : e.end_node_id ∈ dst := hcomp _ (hwf.2.1 e he).2
      have hklt : dst.indexOf e.end_node_id < dst.length :=
        List.indexOf_lt_length.mpr hend
      have hget : dst.get ⟨dst.indexOf e.end_node_id, hklt⟩ = e.end_node_id := by
        rw [List.get_eq_getElem]
        exact List.getElem_indexOf hklt
      exact indexOf_lt_of_mem_take dst _ (hfwd e he _ hklt hget)
    have hvalid : ValidOrder { g with sorted_nodes_ids := dst, is_sorted := true } :=
      ⟨hnd, hlen, hbd, hfwd'⟩
    have hchk : is_topologically_sorted { g with sorted_nodes_ids := dst } = true := by
      apply topo_check_of_fwd
      intro e he k hk hget
      exact Or.inr (hfwd e he k hk hget)
    rw [if_pos (by simpa [Graph.num_nodes] using hlen.symm), if_pos hchk] at hok
    obtain rfl := Except.ok.injEq .. ▸ hok
    exact ⟨⟨dst, rfl⟩, hvalid⟩

/-! Preservation of the structural invariant by the mutation primitives. -/

theorem getD_append_cases {α : Type} [Inhabited α] (l : List α) (x : α) (i : Nat) :
    (l ++ [x]).getD i default =
      if i < l.length then l.getD i default
      else if i = l.length then x else default := by
  rw [List.getD_eq_getElem?_getD]
  by_cases h1 : i < l.length
  · rw [List.getElem?_append_left h1, if_pos h1, ← List.getD_eq_getElem?_getD]
  · rw [if_neg h1]
    by_cases h2 : i = l.length
    · subst h2
      simp
    · rw [if_neg h2, List.getElem?_eq_none]
      · rfl
      · simp
        omega

theorem al_add_node (g : Graph) (c : Char) (t a : Nat) :
    al (add_node g c t).1 a = al g a := by
  simp only [al, add_node]
  rw [getD_append_cases]
  by_cases h1 : a < g.nodes.length
  · rw [if_pos h1]
  · rw [if_neg h1]
    by_cases h2 : a = g.nodes.length
    · rw [if_pos h2, h2]
      have : g.nodes.getD g.nodes.length default = default := by
        rw [List.getD_eq_getElem?_getD, List.getElem?_eq_none (le_refl _)]
        rfl
      rw [this]
      rfl
    · rw [if_neg h2]
      have : g.nodes.getD a default = default := by
        rw [List.getD_eq_getElem?_getD, List.getElem?_eq_none]
        · rfl
        · omega
      rw [this]

theorem add_node_ginv {g : Graph} (h : GInv g) (c : Char) (t : Nat) :
    GInv (add_node g c t).1 := by
  obtain ⟨⟨hd, hb, ha⟩, hp, hal⟩ := h
  refine ⟨⟨?_, ?_, ?_⟩, ?_, ?_, ?_, ?_⟩
  · intro i hi
    simp only [add_node, Graph.num_nodes, List.length_append, List.length_singleton] at hi
    simp only [nodeIdAt, add_node]
    rw [getD_append_cases]
    by_cases h1 : i < g.nodes.length
    · rw [if_pos h1]
      exact hd i h1
    · have h2 : i = g.nodes.length := by omega
      rw [if_neg h1, if_pos h2, h2]
      rfl
  · intro e he
    simp only [add_node] at he
    have := hb e he
    simp only [Graph.num_nodes] at this
    simp only [add_node, Graph.num_nodes, List.length_append, List.length_singleton]
    omega
  · intro x a hand
    rw [al_add_node] at hand
    have := ha x a hand
    simp only [Graph.num_nodes] at this
    simp only [add_node, Graph.num_nodes, List.length_append, List.length_singleton]
    omega
  · exact hp
  · intro a
    simp only [al_add_node]
    exact hal.1 a
  · intro a b
    simp only [al_add_node]
    exact hal.2.1 a b
  · intro a b cc
    simp only [al_add_node]
    exact hal.2.2 a b cc

theorem update_first_edge_pairs (b en l : Nat) (w : ℤ) :
    ∀ es : List Edge,
    (update_first_edge es b en l w).map (fun e => (e.begin_node_id, e.end_node_id)) =
      es.map (fun e => (e.begin_node_id, e.end_node_id)) := by
  intro es
  induction es with
  | nil => rfl
  | cons e rest ih =>
    rw [update_first_edge]
    split
    · simp [edge_add_sequence]
    · simp only [List.map_cons]
      rw [ih]

theorem add_edge_fields {g : Graph} {b en : Nat} {w : ℤ} {g' : Graph}
    (hok : add_edge g b en w = .ok g') :
    g'.nodes = g.nodes ∧ g'.num_sequences = g.num_sequences ∧
    g'.alphabet = g.alphabet ∧ g'.is_sorted = g.is_sorted ∧
    g'.sorted_nodes_ids = g.sorted_nodes_ids ∧
    g'.sequences_start_nodes_ids = g.sequences_start_nodes_ids ∧
    g'.consensus = g.consensus ∧
    b < g.num_nodes ∧ en < g.num_nodes := by
  rw [add_edge] at hok
  by_cases hlt : b < g.num_nodes ∧ en < g.num_nodes
  · rw [if_pos hlt] at hok
    by_cases hex : g.edges.any (fun e => e.begin_node_id == b && e.end_node_id == en)
    · rw [if_pos hex] at hok
      obtain rfl := Except.ok.injEq .. ▸ hok
      exact ⟨rfl, rfl, rfl, rfl, rfl, rfl, rfl, hlt.1, hlt.2⟩
    · rw [if_neg hex] at hok
      obtain rfl := Except.ok.injEq .. ▸ hok
      exact ⟨rfl, rfl, rfl, rfl, rfl, rfl, rfl, hlt.1, hlt.2⟩
  · rw [if_neg hlt] at hok
    exact Except.noConfusion hok

theorem add_edge_pairs_cases {g : Graph} {b en : Nat} {w : ℤ} {g' : Graph}
    (hok : add_edge g b en w = .ok g') :
    edgePairs g' = edgePairs g ∨
    (edgePairs g' = edgePairs g ++ [(b, en)] ∧ (b, en) ∉ edgePairs g ∧
     g'.edges = g.edges ++
       [{ begin_node_id := b, end_node_id := en,
          sequence_labels := [g.num_sequences], total_weight := w }]) := by
  rw [add_edge] at hok
  by_cases hlt : b < g.num_nodes ∧ en < g.num_nodes
  · rw [if_pos hlt] at hok
    by_cases hex : g.edges.any (fun e => e.begin_node_id == b && e.end_node_id == en)
    · rw [if_pos hex] at hok
      obtain rfl := Except.ok.injEq .. ▸ hok
      left
      simp only [edgePairs]
      exact update_first_edge_pairs b en g.num_sequences w g.edges
    · rw [if_neg hex] at hok
      obtain rfl := Except.ok.injEq .. ▸ hok
      right
      refine ⟨by simp [edgePairs], ?_, rfl⟩
      intro hmem
      obtain ⟨e, he, heq⟩ := List.mem_map.mp hmem
      rw [Bool.not_eq_true, List.any_eq_false] at hex
      have h1 := (Prod.mk.injEq .. ▸ heq).1
      have h2 := (Prod.mk.injEq .. ▸ heq).2
      exact hex e he (by simp [h1, h2])
  · rw [if_neg hlt] at hok
    exact Except.noConfusion hok

theorem add_edge_ginv {g : Graph} {b en : Nat} {w : ℤ} {g' : Graph}
    (h : GInv g) (hok : add_edge g b en w = .ok g') : GInv g' := by
  obtain ⟨⟨hd, hb, ha⟩, hp, hal⟩ := h
  obtain ⟨hn, _, _, _, _, _, _, hbn, henn⟩ := add_edge_fields hok
  have hnum : g'.num_nodes = g.num_nodes := by
    simp [Graph.num_nodes, hn]
  refine ⟨⟨?_, ?_, ?_⟩, ?_, ?_⟩
  · intro i hi
    rw [hnum] at hi
    have := hd i hi
    simp only [nodeIdAt, hn]
    exact this
  · intro e he
    have hmem : (e.begin_node_id, e.end_node_id) ∈ edgePairs g' :=
      List.mem_map.mpr ⟨e, he, rfl⟩
    rcases add_edge_pairs_cases hok with hc | hc
    · rw [hc] at hmem
      obtain ⟨e', he', heq⟩ := List.mem_map.mp hmem
      have h1 := (Prod.mk.injEq .. ▸ heq).1
      have h2 := (Prod.mk.injEq .. ▸ heq).2
      rw [hnum, ← h1, ← h2]
      exact hb e' he'
    · rw [hc.1] at hmem
      rcases List.mem_append.mp hmem with hh | hh
      · obtain ⟨e', he', heq⟩ := List.mem_map.mp hh
        have h1 := (Prod.mk.injEq .. ▸ heq).1
        have h2 := (Prod.mk.injEq .. ▸ heq).2
        rw [hnum, ← h1, ← h2]
        exact hb e' he'
      · rw [List.mem_singleton] at hh
        have h1 := (Prod.mk.injEq .. ▸ hh).1
        have h2 := (Prod.mk.injEq .. ▸ hh).2
        rw [hnum, h1, h2]
        exact ⟨hbn, henn⟩
  · intro x a hand
    rw [hnum]
    have heq : al g' x = al g x := by simp [al, hn]
    rw [heq] at hand
    exact ha x a hand
  · rcases add_edge_pairs_cases hok with hc | hc
    · rw [hc]
      exact hp
    · rw [hc.1]
      rw [List.nodup_append]
      exact ⟨hp, List.nodup_singleton _, by simpa [List.disjoint_singleton] using hc.2.1⟩
  · have hal' : ∀ a, al g' a = al g a := by
      intro a
      simp [al, hn]
    exact ⟨fun a => hal' a ▸ hal.1 a,
      fun a b1 => by rw [hal' a, hal' b1]; exact hal.2.1 a b1,
      fun a b1 c1 => by rw [hal' a, hal' b1]; exact hal.2.2 a b1 c1⟩

theorem chain_nodes_ginv (seq : List Char) (ws : List ℤ) :
    ∀ (steps i : Nat) (g g' : Graph), chain_nodes seq ws steps i g = .ok g' →
    GInv g → GInv g' := by
  intro steps
  induction steps with
  | zero =>
    intro i g g' hok hg
    rw [chain_nodes] at hok
    obtain rfl := Except.ok.injEq .. ▸ hok
    exact hg
  | succ st ih =>
    intro i g g' hok hg
    rw [chain_nodes] at hok
    simp only [bind_ok] at hok
    obtain ⟨w1, _, w2, _, g2, hg2, hok⟩ := hok
    exact ih _ _ _ hok (add_edge_ginv (add_node_ginv hg _ _) hg2)

theorem add_sequence_ginv {g : Graph} {seq : List Char} {ws : List ℤ}
    {b e : Nat} {g' : Graph} {s : Int}
    (hok : add_sequence g seq ws b e = .ok (g', s)) (hg : GInv g) : GInv g' := by
  rw [add_sequence] at hok
  by_cases hbe : b = e
  · rw [if_pos (by simpa using hbe)] at hok
    obtain ⟨rfl, _⟩ := Prod.mk.injEq .. ▸ Except.ok.injEq .. ▸ hok
    exact hg
  · rw [if_neg (by simpa using hbe)] at hok
    by_cases hlen : b < seq.length ∧ e ≤ seq.length
    · rw [if_pos hlen] at hok
      simp only [bind_ok] at hok
      obtain ⟨g2, hg2, hok⟩ := hok
      obtain ⟨rfl, _⟩ := Prod.mk.injEq .. ▸ Except.ok.injEq .. ▸ hok
      exact chain_nodes_ginv seq ws _ _ _ _ hg2 (add_node_ginv hg _ _)
    · rw [if_neg hlen] at hok
      exact Except.noConfusion hok

theorem push_aligned_edges (g : Graph) (a b : Nat) :
    (push_aligned g a b).edges = g.edges := rfl

theorem push_aligned_length (g : Graph) (a b : Nat) :
    (push_aligned g a b).nodes.length = g.nodes.length := by
  simp [push_aligned]

theorem push_aligned_num_nodes (g : Graph) (a b : Nat) :
    (push_aligned g a b).num_nodes = g.num_nodes := by
  simp [Graph.num_nodes, push_aligned]

theorem getD_nodes_lt {g : Graph} {i : Nat} (h : i < g.nodes.length) :
    g.nodes.getD i default = g.nodes[i] := by
  rw [List.getD_eq_getElem?_getD, List.getElem?_eq_getElem h]
  rfl

theorem al_push {g : Graph} (hd : DenseIds g) (a b x : Nat) :
    al (push_aligned g a b) x =
      if x = a ∧ a < g.num_nodes then al g a ++ [b] else al g x := by
  by_cases hx : x < g.nodes.length
  · have hid : g.nodes[x].id = x := by
      have := hd x hx
      simp only [nodeIdAt] at this
      rw [getD_nodes_lt hx] at this
      exact this
    have hlhs : al (push_aligned g a b) x =
        (if g.nodes[x].id == a then
          { g.nodes[x] with aligned_nodes_ids := g.nodes[x].aligned_nodes_ids ++ [b] }
         else g.nodes[x]).aligned_nodes_ids := by
      simp only [al, push_aligned]
      rw [List.getD_eq_getElem?_getD, List.getElem?_map, List.getElem?_eq_getElem hx]
      rfl
    rw [hlhs]
    by_cases hxa : x = a
    · rw [if_pos (by rw [hid]; simp [hxa]), if_pos ⟨hxa, by rw [← hxa]; exact hx⟩]
      simp only [al]
      rw [← hxa, getD_nodes_lt hx]
    · rw [if_neg (by rw [hid]; simp [hxa]), if_neg (by intro hc; exact hxa hc.1)]
      simp only [al]
      rw [getD_nodes_lt hx]
  · have h1 : al (push_aligned g a b) x = (default : Node).aligned_nodes_ids := by
      simp only [al, push_aligned]
      rw [List.getD_eq_getElem?_getD, List.getElem?_eq_none (by simp; omega)]
      rfl
    have h2 : al g x = (default : Node).aligned_nodes_ids := by
      simp only [al]
      rw [List.getD_eq_getElem?_getD, List.getElem?_eq_none (by omega)]
      rfl
    rw [h1, if_neg (by intro hc; exact hx (hc.1 ▸ hc.2)), h2]

theorem nodeIdAt_push (g : Graph) (a b : Nat) (i : Nat) :
    nodeIdAt (push_aligned g a b) i = nodeIdAt g i := by
  simp only [nodeIdAt, push_aligned]
  by_cases hx : i < g.nodes.length
  · rw [List.getD_eq_getElem?_getD, List.getElem?_map, List.getElem?_eq_getElem hx,
      List.getD_eq_getElem?_getD, List.getElem?_eq_getElem hx]
    simp only [Option.map_some', Option.getD_some]
    split <;> rfl
  · rw [List.getD_eq_getElem?_getD, List.getElem?_eq_none (by simp; omega),
      List.getD_eq_getElem?_getD, List.getElem?_eq_none (by omega)]

theorem push_dense {g : Graph} (hd : DenseIds g) (a b : Nat) :
    DenseIds (push_aligned g a b) := by
  intro i hi
  rw [push_aligned_num_nodes] at hi
  rw [nodeIdAt_push]
  exact hd i hi

theorem push_pair_mem {g : Graph} (hd : DenseIds g) {v a : Nat}
    (hv : v < g.num_nodes) (ha : a < g.num_nodes) (x y : Nat) :
    y ∈ al (push_aligned (push_aligned g v a) a v) x ↔
      (y ∈ al g x ∨ (x = v ∧ y = a) ∨ (y = v ∧ x = a)) := by
  have h2n : a < (push_aligned g v a).num_nodes := by
    rw [push_aligned_num_nodes]
    exact ha
  rw [al_push (push_dense hd v a)]
  by_cases h1 : x = a
  · rw [if_pos ⟨h1, h2n⟩, al_push hd]
    by_cases h2 : a = v
    · rw [if_pos ⟨h2, hv⟩]
      subst h1
      subst h2
      simp [List.mem_append]
      try tauto
    · rw [if_neg (by intro hc; exact h2 hc.1)]
      subst h1
      simp [List.mem_append]
      try tauto
  · rw [if_neg (by intro hc; exact h1 hc.1), al_push hd]
    by_cases h2 : x = v
    · rw [if_pos ⟨h2, hv⟩]
      subst h2
      simp [List.mem_append]
      try tauto
    · rw [if_neg (by intro hc; exact h2 hc.1)]
      simp [h1, h2]
      try tauto

theorem link_fold_dense (v : Nat) :
    ∀ (S : List Nat) (g : Graph), DenseIds g →
    DenseIds (S.foldl (fun acc aid => push_aligned (push_aligned acc v aid) aid v) g) := by
  intro S
  induction S with
  | nil => intro g hd; exact hd
  | cons a S' ih =>
    intro g hd
    rw [List.foldl_cons]
    exact ih _ (push_dense (push_dense hd v a) a v)

theorem link_fold_num_nodes (v : Nat) :
    ∀ (S : List Nat) (g : Graph),
    (S.foldl (fun acc aid => push_aligned (push_aligned acc v aid) aid v) g).num_nodes
      = g.num_nodes := by
  intro S
  induction S with
  | nil => intro g; rfl
  | cons a S' ih =>
    intro g
    rw [List.foldl_cons, ih, push_aligned_num_nodes, push_aligned_num_nodes]

theorem link_fold_edges (v : Nat) :
    ∀ (S : List Nat) (g : Graph),
    (S.foldl (fun acc aid => push_aligned (push_aligned acc v aid) aid v) g).edges
      = g.edges := by
  intro S
  induction S with
  | nil => intro g; rfl
  | cons a S' ih =>
    intro g
    rw [List.foldl_cons, ih, push_aligned_edges, push_aligned_edges]

theorem link_fold_mem (v : Nat) :
    ∀ (S : List Nat) (g : Graph), DenseIds g → v < g.num_nodes →
    (∀ a ∈ S, a < g.num_nodes) → ∀ x y,
    (y ∈ al (S.foldl (fun acc aid => push_aligned (push_aligned acc v aid) aid v) g) x ↔
      (y ∈ al g x ∨ (x = v ∧ y ∈ S) ∨ (y = v ∧ x ∈ S))) := by
  intro S
  induction S with
  | nil => intro g hd hv hb x y; simp
  | cons a S' ih =>
    intro g hd hv hb x y
    rw [List.foldl_cons]
    have hd1 : DenseIds (push_aligned (push_aligned g v a) a v) :=
      push_dense (push_dense hd v a) a v
    have hv1 : v < (push_aligned (push_aligned g v a) a v).num_nodes := by
      rw [push_aligned_num_nodes, push_aligned_num_nodes]
      exact hv
    have hb1 : ∀ w ∈ S', w < (push_aligned (push_aligned g v a) a v).num_nodes := by
      rw [push_aligned_num_nodes, push_aligned_num_nodes]
      exact fun w hw => hb w (List.mem_cons_of_mem _ hw)
    rw [ih _ hd1 hv1 hb1 x y,
      push_pair_mem hd hv (hb a (List.mem_cons_self a S')) x y]
    simp only [List.mem_cons]
    tauto

theorem link_aligned_mem {g : Graph} (hd : DenseIds g) {v m : Nat} {S : List Nat}
    (hv : v < g.num_nodes) (hm : m < g.num_nodes)
    (hS : ∀ a ∈ S, a < g.num_nodes) (x y : Nat) :
    y ∈ al (link_aligned g v S m) x ↔
      (y ∈ al g x ∨ (x = v ∧ (y ∈ S ∨ y = m)) ∨ (y = v ∧ (x ∈ S ∨ x = m))) := by
  rw [link_aligned]
  have hdf := link_fold_dense v S g hd
  have hvf : v < (S.foldl (fun acc aid =>
      push_aligned (push_aligned acc v aid) aid v) g).num_nodes := by
    rw [link_fold_num_nodes]
    exact hv
  have hmf : m < (S.foldl (fun acc aid =>
      push_aligned (push_aligned acc v aid) aid v) g).num_nodes := by
    rw [link_fold_num_nodes]
    exact hm
  rw [push_pair_mem hdf hvf hmf x y, link_fold_mem v S g hd hv hS x y]
  tauto

theorem link_aligned_edges (g : Graph) (v : Nat) (S : List Nat) (m : Nat) :
    (link_aligned g v S m).edges = g.edges := by
  rw [link_aligned, push_aligned_edges, push_aligned_edges, link_fold_edges]

theorem link_aligned_num_nodes (g : Graph) (v : Nat) (S : List Nat) (m : Nat) :
    (link_aligned g v S m).num_nodes = g.num_nodes := by
  rw [link_aligned, push_aligned_num_nodes, push_aligned_num_nodes,
    link_fold_num_nodes]

theorem link_aligned_dense {g : Graph} (hd : DenseIds g) (v : Nat) (S : List Nat)
    (m : Nat) : DenseIds (link_aligned g v S m) := by
  rw [link_aligned]
  exact push_dense (push_dense (link_fold_dense v S g hd) v m) m v

theorem al_oob {g : Graph} {x : Nat} (h : g.nodes.length ≤ x) : al g x = [] := by
  simp only [al]
  rw [List.getD_eq_getElem?_getD, List.getElem?_eq_none h]
  rfl

/-- Linking a fresh variant node into the clique of node m preserves the
combined structural invariant. -/
theorem link_variant_ginv {g : Graph} (hg : GInv g) (letter : Char) {m : Nat}
    (hm : m < g.num_nodes) :
    GInv (link_aligned (add_node g letter 1).1 g.num_nodes (al g m) m) := by
  obtain ⟨⟨hd, hb, ha⟩, hp, hirr, hsym, htr⟩ := hg
  have hg' : GInv (add_node g letter 1).1 := add_node_ginv ⟨⟨hd, hb, ha⟩, hp, hirr, hsym, htr⟩ _ _
  have hnn' : (add_node g letter 1).1.num_nodes = g.num_nodes + 1 := by
    simp [add_node, Graph.num_nodes]
  have hv' : g.num_nodes < (add_node g letter 1).1.num_nodes := by omega
  have hm' : m < (add_node g letter 1).1.num_nodes := by omega
  have hS' : ∀ a ∈ al g m, a < (add_node g letter 1).1.num_nodes := by
    intro a haa
    have := ha m a haa
    omega
  have hmem : ∀ x y, y ∈ al (link_aligned (add_node g letter 1).1 g.num_nodes
      (al g m) m) x ↔
      (y ∈ al g x ∨ (x = g.num_nodes ∧ (y ∈ al g m ∨ y = m)) ∨
       (y = g.num_nodes ∧ (x ∈ al g m ∨ x = m))) := by
    intro x y
    rw [link_aligned_mem hg'.1.1 hv' hm' hS' x y, al_add_node]
  have hQv : ¬ (g.num_nodes ∈ al g m ∨ g.num_nodes = m) := by
    rintro (hh | hh)
    · exact absurd (ha m _ hh) (by omega)
    · omega
  have hnotal : ∀ x, g.num_nodes ∉ al g x := by
    intro x hh
    exact absurd (ha x _ hh) (by omega)
  have halv : al g g.num_nodes = [] := al_oob (le_of_eq rfl)
  have hF1 : ∀ a b, (a ∈ al g m ∨ a = m) → (b ∈ al g m ∨ b = m) → b ≠ a →
      b ∈ al g a := by
    intro a b haQ hbQ hne
    rcases haQ with haS | haM
    · rcases hbQ with hbS | hbM
      · exact htr a m b (hsym m a haS) hbS hne
      · rw [hbM]
        exact hsym m a haS
    · rcases hbQ with hbS | hbM
      · rw [haM]
        exact hbS
      · exact absurd (hbM.trans haM.symm) hne
  have hF2 : ∀ a b, (a ∈ al g m ∨ a = m) → b ∈ al g a → (b ∈ al g m ∨ b = m) := by
    intro a b haQ hba
    rcases haQ with haS | haM
    · by_cases hbm : b = m
      · exact Or.inr hbm
      · exact Or.inl (htr m a b haS hba hbm)
    · rw [haM] at hba
      exact Or.inl hba
  refine ⟨⟨link_aligned_dense hg'.1.1 _ _ _, ?_, ?_⟩, ?_, ?_, ?_, ?_⟩
  · intro e he
    rw [link_aligned_edges] at he
    simp only [add_node] at he
    rw [link_aligned_num_nodes]
    exact hg'.1.2.1 e (by simpa [add_node] using he)
  · intro x a haa
    rw [hmem x a] at haa
    rw [link_aligned_num_nodes, hnn']
    rcases haa with hh | ⟨_, hh | rfl⟩ | ⟨rfl, _⟩
    · have := ha x a hh
      omega
    · have := ha m a hh
      omega
    · omega
    · omega
  · have : edgePairs (link_aligned (add_node g letter 1).1 g.num_nodes (al g m) m)
        = edgePairs g := by
      simp only [edgePairs]
      rw [link_aligned_edges]
      simp [add_node]
    rw [this]
    exact hp
  · intro a haa
    rw [hmem a a] at haa
    rcases haa with hh | ⟨rfl, hh⟩ | ⟨rfl, hh⟩
    · exact hirr a hh
    · exact hQv hh
    · exact hQv hh
  · intro a b hba
    rw [hmem a b] at hba
    rw [hmem b a]
    rcases hba with hh | ⟨rfl, hh⟩ | ⟨rfl, hh⟩
    · exact Or.inl (hsym a b hh)
    · exact Or.inr (Or.inr ⟨rfl, hh⟩)
    · exact Or.inr (Or.inl ⟨rfl, hh⟩)
  · intro a b c hba hcb hca
    rw [hmem a b] at hba
    rw [hmem b c] at hcb
    rw [hmem a c]
    rcases hba with hh | ⟨rfl, hh⟩ | ⟨rfl, hh⟩
    · rcases hcb with hh2 | ⟨rfl, hh2⟩ | ⟨rfl, hh2⟩
      · exact Or.inl (htr a b c hh hh2 hca)
      · exact absurd hh (hnotal a)
      · exact Or.inr (Or.inr ⟨rfl, hF2 b a hh2 (hsym a b hh)⟩)
    · rcases hcb with hh2 | ⟨rfl, hh2⟩ | ⟨rfl, hh2⟩
      · exact Or.inr (Or.inl ⟨rfl, hF2 b c hh hh2⟩)
      · exact absurd hh hQv
      · exact absurd rfl hca
    · rcases hcb with hh2 | ⟨_, hh2⟩ | ⟨rfl, hh2⟩
      · rw [halv] at hh2
        exact absurd hh2 (List.not_mem_nil c)
      · exact Or.inl (hF1 a c hh hh2 hca)
      · exact absurd hh2 hQv

theorem idxNode_ok {g : Graph} {i : Int} {nd : Node}
    (h : idxNode g i = .ok nd) :
    0 ≤ i ∧ i.toNat < g.num_nodes ∧ nd = g.nodes.getD i.toNat default := by
  rw [idxNode] at h
  by_cases hc : 0 ≤ i ∧ i.toNat < g.num_nodes
  · rw [if_pos hc] at h
    exact ⟨hc.1, hc.2, (Except.ok.injEq .. ▸ h).symm⟩
  · rw [if_neg hc] at h
    exact Except.noConfusion h

theorem idxW_ok {l : List ℤ} {i : Int} {w : ℤ} (h : idxW l i = .ok w) :
    0 ≤ i ∧ i.toNat < l.length ∧ w = l.getD i.toNat 0 := by
  rw [idxW] at h
  by_cases hc : 0 ≤ i ∧ i.toNat < l.length
  · rw [if_pos hc] at h
    exact ⟨hc.1, hc.2, (Except.ok.injEq .. ▸ h).symm⟩
  · rw [if_neg hc] at h
    exact Except.noConfusion h

theorem u32_eq_toNat {x : Int} (h0 : 0 ≤ x) (h1 : x < 4294967296) :
    u32 x = x.toNat := by
  rw [u32, Int.emod_eq_of_lt h0 h1]

theorem int32able_u32 {x : Int} (h : int32able x = true) (h0 : 0 ≤ x) :
    u32 x = x.toNat := by
  rw [int32able] at h
  simp only [Bool.and_eq_true, decide_eq_true_eq] at h
  exact u32_eq_toNat h0 (by omega)

theorem aa_resolve_ginv {g : Graph} {nid : Int} {letter : Char}
    {p : Graph × Int} (h : aa_resolve g nid letter = .ok p)
    (hi : int32able nid = true) (hg : GInv g) : GInv p.1 := by
  rw [aa_resolve] at h
  by_cases hnid : (nid == (-1 : Int)) = true
  · rw [if_pos hnid] at h
    obtain rfl := Except.ok.injEq .. ▸ h
    exact add_node_ginv hg _ _
  · rw [if_neg (by simpa using hnid)] at h
    simp only [bind_ok] at h
    obtain ⟨node, hnode, h⟩ := h
    obtain ⟨hge0, hlt, hnd⟩ := idxNode_ok hnode
    by_cases hlet : (node.letter == letter) = true
    · rw [if_pos hlet] at h
      obtain rfl := Except.ok.injEq .. ▸ h
      exact hg
    · rw [if_neg (by simpa using hlet)] at h
      cases hfa : find_aligned_letter g node.aligned_nodes_ids letter with
      | some aid =>
        rw [hfa] at h
        obtain rfl := Except.ok.injEq .. ▸ h
        exact hg
      | none =>
        rw [hfa] at h
        obtain rfl := Except.ok.injEq .. ▸ h
        have hu32 : u32 nid = nid.toNat := int32able_u32 hi hge0
        have hsnd : (add_node g letter 1).2 = g.num_nodes := rfl
        have hal : node.aligned_nodes_ids = al g nid.toNat := by
          rw [hnd]
          rfl
        show GInv (link_aligned (add_node g letter 1).1 (add_node g letter 1).2
          node.aligned_nodes_ids (u32 nid))
        rw [hsnd, hal, hu32]
        exact link_variant_ginv hg letter hlt

theorem aa_edge_ginv {g : Graph} {head newid : Int} {w : ℤ} {g2 : Graph}
    (h : aa_edge g head newid w = .ok g2) (hg : GInv g) : GInv g2 := by
  rw [aa_edge] at h
  by_cases hh : (head != (-1 : Int)) = true
  · rw [if_pos hh] at h
    exact add_edge_ginv hg h
  · rw [if_neg hh] at h
    obtain rfl := Except.ok.injEq .. ▸ h
    exact hg

theorem aa_loop_ginv (seq : List Char) (ws : List ℤ) :
    ∀ (cols : List (Int × Int)) (g : Graph) (start head : Int) (pw : ℤ)
      (g' : Graph) (st' hd' : Int) (pw' : ℤ),
    aa_loop seq ws cols g start head pw = .ok (g', st', hd', pw') →
    (∀ c ∈ cols, int32able c.1 = true) →
    GInv g → GInv g' := by
  intro cols
  induction cols with
  | nil =>
    intro g start head pw g' st' hd' pw' hok _ hg
    rw [aa_loop] at hok
    obtain ⟨rfl, _⟩ := Prod.mk.injEq .. ▸ Except.ok.injEq .. ▸ hok
    exact hg
  | cons c rest ih =>
    obtain ⟨nid, sid⟩ := c
    intro g start head pw g' st' hd' pw' hok hint hg
    rw [aa_loop] at hok
    by_cases hsid : (sid == (-1 : Int)) = true
    · rw [if_pos hsid] at hok
      exact ih _ _ _ _ _ _ _ _ hok
        (fun c hc => hint c (List.mem_cons_of_mem _ hc)) hg
    · rw [if_neg (by simpa using hsid)] at hok
      simp only [bind_ok] at hok
      obtain ⟨letter, _, p1, hp1, w2, _, g2, hg2, hok⟩ := hok
      have hg1 : GInv p1.1 :=
        aa_resolve_ginv hp1 (hint (nid, sid) (List.mem_cons_self ..)) hg
      exact ih _ _ _ _ _ _ _ _ hok
        (fun c hc => hint c (List.mem_cons_of_mem _ hc)) (aa_edge_ginv hg2 hg1)

theorem ginv_congr {g g' : Graph} (hn : g'.nodes = g.nodes)
    (he : g'.edges = g.edges) (hg : GInv g) : GInv g' := by
  obtain ⟨⟨hd, hb, hab⟩, hnd, hir, hsy, htr⟩ := hg
  have hnum : g'.num_nodes = g.num_nodes := by
    rw [Graph.num_nodes, Graph.num_nodes, hn]
  have hid : ∀ i, nodeIdAt g' i = nodeIdAt g i := fun i => by
    rw [nodeIdAt, nodeIdAt, hn]
  have hal : ∀ a, al g' a = al g a := fun a => by
    rw [al, al, hn]
  refine ⟨⟨fun i hi => ?_, fun e hee => ?_, fun x a ha => ?_⟩, ?_,
    fun a => ?_, fun a b hb2 => ?_, fun a b c h1 h2 h3 => ?_⟩
  · rw [hid]
    exact hd i (hnum ▸ hi)
  · rw [he] at hee
    rw [hnum]
    exact hb e hee
  · rw [hal] at ha
    rw [hnum]
    exact hab x a ha
  · simpa [edgePairs, he] using hnd
  · rw [hal]
    exact hir a
  · rw [hal] at hb2 ⊢
    exact hsy a b hb2
  · rw [hal] at h1 h2 ⊢
    exact htr a b c h1 h2 h3

theorem add_sequence_ginv2 {g : Graph} {seq : List Char} {ws : List ℤ}
    {b e : Nat} {p : Graph × Int}
    (hok : add_sequence g seq ws b e = .ok p) (hg : GInv g) : GInv p.1 := by
  obtain ⟨g1, s⟩ := p
  exact add_sequence_ginv hok hg

theorem aa_tail_edge_ginv {g : Graph} {tail head : Int} {pw : ℤ}
    {ws : List ℤ} {vb : Int} {g2 : Graph}
    (h : aa_tail_edge g tail head pw ws vb = .ok g2) (hg : GInv g) :
    GInv g2 := by
  rw [aa_tail_edge] at h
  by_cases hh : (tail != (-1 : Int)) = true
  · rw [if_pos hh] at h
    simp only [bind_ok] at h
    obtain ⟨wt, _, h⟩ := h
    exact add_edge_ginv hg h
  · rw [if_neg hh] at h
    obtain rfl := Except.ok.injEq .. ▸ h
    exact hg

theorem add_alignment_ginv {g : Graph} {node_ids seq_ids : List Int}
    {seq : List Char} {ws : List ℤ} {g' : Graph}
    (hok : add_alignment g node_ids seq_ids seq ws = .ok g')
    (hg : GInv g) : GInv g' ∧ ValidOrder g' := by
  rw [add_alignment] at hok
  split at hok
  · exact Except.noConfusion hok
  split at hok
  · exact Except.noConfusion hok
  split at hok
  · exact Except.noConfusion hok
  split at hok
  · exact Except.noConfusion hok
  rename_i hi4
  obtain ⟨hiaN, hiaS⟩ := Decidable.not_not.mp hi4
  have hgA : GInv { g with alphabet := seq.foldl set_insert g.alphabet } :=
    ginv_congr rfl rfl hg
  split at hok
  · simp only [bind_ok] at hok
    obtain ⟨p1, hp1, hok⟩ := hok
    have hg5 : GInv (aa_finish p1.1 p1.2) :=
      ginv_congr rfl rfl (add_sequence_ginv2 hp1 hgA)
    obtain ⟨⟨dst, hdst⟩, hvo⟩ := topological_sort_valid hg5.1 rfl hok
    exact ⟨ginv_congr (by rw [hdst]) (by rw [hdst]) hg5, hvo⟩
  · simp only [] at hok
    split at hok
    · exact Except.noConfusion hok
    simp only [bind_ok] at hok
    obtain ⟨p1, hp1, p2, hp2, prevw0, _, q, hq, g4, hg4, hok⟩ := hok
    have hg2 : GInv p2.1 :=
      add_sequence_ginv2 hp2 (add_sequence_ginv2 hp1 hgA)
    have hint : ∀ c ∈ node_ids.zip seq_ids, int32able c.1 = true := by
      intro c hc
      obtain ⟨cn, cs⟩ := c
      have hcn : cn ∈ node_ids := (List.of_mem_zip hc).1
      simpa using (List.all_eq_true.mp hiaN) cn hcn
    obtain ⟨g3, st3, hd3, pw3⟩ := q
    have hg3 : GInv g3 := aa_loop_ginv _ _ _ _ _ _ _ _ _ _ _ hq hint hg2
    have hgt : GInv g4 := aa_tail_edge_ginv hg4 hg3
    have hg5 : GInv (aa_finish g4 st3) :=
      @ginv_congr g4 (aa_finish g4 st3) rfl rfl hgt
    obtain ⟨⟨dst, hdst⟩, hvo⟩ := topological_sort_valid hg5.1 rfl hok
    exact ⟨ginv_congr (by rw [hdst]) (by rw [hdst]) hg5, hvo⟩

theorem add_edge_is_sorted {g : Graph} {b en : Nat} {w : ℤ} {g' : Graph}
    (h : add_edge g b en w = .ok g') : g'.is_sorted = g.is_sorted := by
  rw [add_edge] at h
  split at h
  · split at h
    · obtain rfl := Except.ok.injEq .. ▸ h
      rfl
    · obtain rfl := Except.ok.injEq .. ▸ h
      rfl
  · exact Except.noConfusion h

theorem chain_nodes_is_sorted (seq : List Char) (ws : List ℤ) :
    ∀ (steps i : Nat) (g g' : Graph),
    chain_nodes seq ws steps i g = .ok g' → g'.is_sorted = g.is_sorted := by
  intro steps
  induction steps with
  | zero =>
    intro i g g' h
    rw [chain_nodes] at h
    obtain rfl := Except.ok.injEq .. ▸ h
    rfl
  | succ n ih =>
    intro i g g' h
    rw [chain_nodes] at h
    simp only [bind_ok] at h
    obtain ⟨w1, _, w2, _, g2, hg2, h⟩ := h
    rw [ih _ _ _ h, add_edge_is_sorted hg2]
    rfl

theorem add_sequence_is_sorted {g : Graph} {seq : List Char} {ws : List ℤ}
    {b e : Nat} {p : Graph × Int}
    (h : add_sequence g seq ws b e = .ok p) : p.1.is_sorted = g.is_sorted := by
  rw [add_sequence] at h
  split at h
  · obtain rfl := Except.ok.injEq .. ▸ h
    rfl
  · split at h
    · simp only [bind_ok] at h
      obtain ⟨g2, hg2, h⟩ := h
      obtain rfl := Except.ok.injEq .. ▸ h
      rw [show ((g2, _) : Graph × Int).1 = g2 from rfl,
        chain_nodes_is_sorted _ _ _ _ _ _ hg2]
      rfl
    · exact Except.noConfusion h

theorem init_graph_ginv (seq : List Char) : GInv (init_graph seq) := by
  refine ⟨⟨fun i hi => ?_, fun e he => ?_, fun x a ha => ?_⟩, ?_,
    fun a => ?_, fun a b hb => ?_, fun a b c h1 h2 h3 => ?_⟩
  · exact absurd hi (by simp [init_graph, Graph.num_nodes])
  · exact absurd he (by simp [init_graph])
  · exact absurd ha (by simp [init_graph, al, default])
  · simp [init_graph, edgePairs]
  · simp [init_graph, al, default]
  · exact absurd hb (by simp [init_graph, al, default])
  · exact absurd h1 (by simp [init_graph, al, default])

theorem createGraph_ginv {seq : List Char} {ws : List ℤ} {g : Graph}
    (hok : createGraph seq ws = .ok g) : GInv g ∧ ValidOrder g := by
  rw [createGraph] at hok
  split at hok
  · exact Except.noConfusion hok
  split at hok
  · exact Except.noConfusion hok
  simp only [bind_ok] at hok
  obtain ⟨p1, hp1, hok⟩ := hok
  have hg1 : GInv p1.1 := add_sequence_ginv2 hp1 (init_graph_ginv seq)
  have hg2 : GInv { p1.1 with sequences_start_nodes_ids := [p1.2], num_sequences := 1 } :=
    @ginv_congr p1.1 _ rfl rfl hg1
  have hs2 : ({ p1.1 with sequences_start_nodes_ids := [p1.2], num_sequences := 1 } : Graph).is_sorted = false := by
    show p1.1.is_sorted = false
    rw [add_sequence_is_sorted hp1]
    rfl
  obtain ⟨⟨dst, hdst⟩, hvo⟩ := topological_sort_valid hg2.1 hs2 hok
  exact ⟨ginv_congr (by rw [hdst]) (by rw [hdst]) hg2, hvo⟩

/-- Every graph produced by the public construction API satisfies the
structural invariant and carries a valid cached topological order. -/
theorem reachable_ginv {g : Graph} (h : Reachable g) :
    GInv g ∧ ValidOrder g := by
  induction h with
  | base seq ws g hok => exact createGraph_ginv hok
  | step g nids sids seq ws g' _ hok ih => exact add_alignment_ginv hok ih.1

/-- In a valid linearization edges go strictly forward. -/
theorem edgeRel_rank_lt {g : Graph} (h : ValidOrder g) {a b : Nat}
    (hab : edgeRel g a b) : rankOf g a < rankOf g b := by
  obtain ⟨e, he, ha, hb⟩ := hab
  have := h.2.2.2 e he
  rw [ha, hb] at this
  exact this

/-- Reachability along edges strictly increases the rank. -/
theorem transGen_rank_lt {g : Graph} (h : ValidOrder g) {a b : Nat}
    (hab : Relation.TransGen (edgeRel g) a b) : rankOf g a < rankOf g b := by
  induction hab with
  | single h1 => exact edgeRel_rank_lt h h1
  | tail _ h2 ih => exact lt_trans ih (edgeRel_rank_lt h h2)

/-- A graph with a valid linearization is acyclic. -/
theorem acyclic_of_valid_order {g : Graph} (h : ValidOrder g) : ¬ Cyclic g := by
  rintro ⟨v, hv⟩
  exact lt_irrefl _ (transGen_rank_lt h hv)

/-- C1, counterexample.  In the scenario (insert ACGT with uniform weight
1, merge ACCT matching positions 0,1,3 to nodes 0,1,3 with a variant at
position 2), generate_consensus returns ACCT, not the first-inserted
path ACGT the claim asserts: at the equal-weight merge node the
tie-break scores[pred] <= scores[candidate] replaces the predecessor, so
the last equal-scoring branch wins. -/
theorem C1_counterexample :
    c1merged.bind generate_consensus = Except.ok ("ACCT".toList) ∧
    ("ACCT".toList) ≠ ("ACGT".toList) := by
  exact ⟨by decide, by decide⟩

/-- C1, amended.  In the scenario the resulting graph has 5 nodes of
which exactly one is a variant, generate_msa produces the two rows ACGT
and ACCT of 4 columns each, and generate_consensus returns the
second-inserted path ACCT (the deterministic tie-break, with two
sequences of weight 1 and no prior asymmetry, replaces the predecessor
on equal scores, so the last-inserted equal-weight path wins). -/
theorem C1_amended :
    c1merged = Except.ok c1g ∧
    c1g.num_nodes = 5 ∧
    (c1g.nodes.filter (fun nd => nd.type == 1)).length = 1 ∧
    generate_msa c1g false = Except.ok [("ACGT".toList), ("ACCT".toList)] ∧
    (∀ row ∈ [("ACGT".toList), ("ACCT".toList)], row.length = 4) ∧
    generate_consensus c1g = Except.ok ("ACCT".toList) := by
  refine ⟨by decide, by decide, by decide, by decide, by decide, by decide⟩

/-- C3.  The rigorous topological sort does not place every aligned
group contiguously on every acyclic reachable graph: on the reachable,
acyclic graph c3g (built by two legal add_alignment calls) the variant
node 3 is visited before its primary node 2, visit_node_rigorously trips
its assert(marks[node_id] != 1 && "Graph is not a DAG!") although the
graph is a DAG, and generate_msa aborts with GraphCorruption instead of
producing any column assignment. -/
theorem C3_rigorous_sort_aborts_on_acyclic_reachable_graph :
    Reachable c3g ∧
    c3graph = Except.ok c3g ∧
    ValidOrder c3g ∧
    (¬ Cyclic c3g) ∧
    rigorous_pass c3g = Except.error Err.graphCorruption ∧
    generate_msa c3g false = Except.error Err.graphCorruption := by
  have h1 : createGraph ("AB".toList) (List.replicate 2 1) = Except.ok c3g1 := by decide
  have h2 : add_alignment c3g1 [0, -1] [0, 1] ("AX".toList) (List.replicate 2 1)
      = Except.ok c3g2 := by decide
  have h3 : add_alignment c3g2 [0, 2, 1] [0, 1, 2] ("AYB".toList) (List.replicate 3 1)
      = Except.ok c3g := by decide
  have hr : Reachable c3g :=
    Reachable.step _ _ _ _ _ _ (Reachable.step _ _ _ _ _ _
      (Reachable.base _ _ _ h1) h2) h3
  have hv : ValidOrder c3g := by decide
  exact ⟨hr, by decide, hv, acyclic_of_valid_order hv, by decide, by decide⟩

/-- C2, counterexample.  On the finite DAG gNeg (edge 0->1 of weight 5,
edge 1->2 of weight -5, valid order [0,1,2]) the main scan ends at node
1 (rank 1), which still has an outgoing edge, and branch_completion
called with rank 1 returns node 0, of rank 0 — not of strictly greater
rank — so the while-loop alternates between ranks 1 and 0 forever and
never reaches a sink (the fuelled embedding reports fuel exhaustion). -/
theorem C2_counterexample :
    ValidOrder gNeg ∧
    (¬ Cyclic gNeg) ∧
    hb_scan gNeg gNeg.sorted_nodes_ids (List.replicate 3 0)
      (List.replicate 3 (-1)) 0 = Except.ok ([0, 5, 0], [-1, 0, -1], 1) ∧
    (out_edges gNeg 1).length ≠ 0 ∧
    rankOf gNeg 1 = 1 ∧
    branch_completion gNeg [0, 5, 0] [-1, 0, -1] 1
      = Except.ok ([0, 5, -1], [-1, 0, -1], 0) ∧
    rankOf gNeg 0 = 0 ∧
    traverse_heaviest_bundle gNeg = Except.error Err.fuelExhausted := by
  have hv : ValidOrder gNeg := by decide
  exact ⟨hv, acyclic_of_valid_order hv, by decide, by decide, by decide,
    by decide, by decide, by decide⟩

/-- C4.  For every graph reachable through createGraph and any number of
successful add_alignment calls, the cached topological order
sorted_nodes_ids is a valid linearization: it lists every node exactly
once, and for every edge the source node appears strictly before the
target node in the order. -/
theorem C4_cached_topological_order_is_valid_linearization {g : Graph}
    (h : Reachable g) :
    (∀ id, id < g.num_nodes → g.sorted_nodes_ids.count id = 1) ∧
    (∀ id ∈ g.sorted_nodes_ids, id < g.num_nodes) ∧
    ∀ e ∈ g.edges,
      g.sorted_nodes_ids.indexOf e.begin_node_id <
      g.sorted_nodes_ids.indexOf e.end_node_id := by
  obtain ⟨_, hnd, hlen, hbd, hfwd⟩ := reachable_ginv h
  refine ⟨fun id hid => ?_, hbd, hfwd⟩
  have hsub : g.sorted_nodes_ids ⊆ List.range g.num_nodes := fun {x} hx =>
    List.mem_range.mpr (hbd x hx)
  have hsp : List.Subperm g.sorted_nodes_ids (List.range g.num_nodes) :=
    List.subperm_of_subset hnd hsub
  have hperm : g.sorted_nodes_ids.Perm (List.range g.num_nodes) :=
    hsp.perm_of_length_le (by rw [List.length_range]; omega)
  rw [hperm.count_eq]
  exact List.count_eq_one_of_mem (List.nodup_range _) (List.mem_range.mpr hid)

/-- C4, witness: the two-node graph of createGraph("AB", weight 1). -/
theorem C4_witness :
    (∀ id, id < c3g1.num_nodes → c3g1.sorted_nodes_ids.count id = 1) ∧
    (∀ id ∈ c3g1.sorted_nodes_ids, id < c3g1.num_nodes) ∧
    ∀ e ∈ c3g1.edges,
      c3g1.sorted_nodes_ids.indexOf e.begin_node_id <
      c3g1.sorted_nodes_ids.indexOf e.end_node_id :=
  C4_cached_topological_order_is_valid_linearization
    (Reachable.base ("AB".toList) (List.replicate ("AB".toList).length 1) c3g1
      (by decide))

/-- C6.  After every add_alignment call (i.e. in every reachable graph
state) the aligned-node relation is symmetric and transitively closed on
distinct nodes; and when a fresh variant node is created it is linked
symmetrically to the existing node and to every node already in that
node's aligned set. -/
theorem C6_aligned_relation_symmetric_and_closed :
    (∀ g : Graph, Reachable g →
      (∀ a b, b ∈ al g a → a ∈ al g b) ∧
      (∀ a b c, b ∈ al g a → c ∈ al g b → c ≠ a → c ∈ al g a)) ∧
    (∀ (g : Graph) (letter : Char) (m : Nat), GInv g → m < g.num_nodes →
      m ∈ al (link_aligned (add_node g letter 1).1 g.num_nodes (al g m) m)
        g.num_nodes ∧
      g.num_nodes ∈ al (link_aligned (add_node g letter 1).1 g.num_nodes
        (al g m) m) m ∧
      ∀ x ∈ al g m,
        x ∈ al (link_aligned (add_node g letter 1).1 g.num_nodes (al g m) m)
          g.num_nodes ∧
        g.num_nodes ∈ al (link_aligned (add_node g letter 1).1 g.num_nodes
          (al g m) m) x) := by
  constructor
  · intro g hr
    obtain ⟨⟨-, -, hirr, hsym, htr⟩, -⟩ := reachable_ginv hr
    exact ⟨hsym, htr⟩
  · intro g letter m hg hm
    have hd1 : DenseIds (add_node g letter 1).1 := (add_node_ginv hg letter 1).1.1
    obtain ⟨⟨hd0, hb0, hab⟩, -, -⟩ := hg
    have hn1 : (add_node g letter 1).1.num_nodes = g.num_nodes + 1 := by
      simp [add_node, Graph.num_nodes]
    have hv : g.num_nodes < (add_node g letter 1).1.num_nodes := by
      rw [hn1]
      omega
    have hm1 : m < (add_node g letter 1).1.num_nodes := by
      rw [hn1]
      omega
    have hS : ∀ a ∈ al g m, a < (add_node g letter 1).1.num_nodes := by
      intro a ha
      rw [hn1]
      exact Nat.lt_succ_of_lt (hab m a ha)
    refine ⟨?_, ?_, fun x hx => ⟨?_, ?_⟩⟩
    · exact (link_aligned_mem hd1 hv hm1 hS _ _).mpr
        (Or.inr (Or.inl ⟨rfl, Or.inr rfl⟩))
    · exact (link_aligned_mem hd1 hv hm1 hS _ _).mpr
        (Or.inr (Or.inr ⟨rfl, Or.inr rfl⟩))
    · exact (link_aligned_mem hd1 hv hm1 hS _ _).mpr
        (Or.inr (Or.inl ⟨rfl, Or.inl hx⟩))
    · exact (link_aligned_mem hd1 hv hm1 hS _ _).mpr
        (Or.inr (Or.inr ⟨rfl, Or.inl hx⟩))

/-- C6, witness: the two-sequence scenario graph, and the linking of a
fresh variant against node 2 (letter G) of the four-node chain. -/
theorem C6_witness :
    (∀ a b, b ∈ al c1g a → a ∈ al c1g b) ∧
    (∀ a b c, b ∈ al c1g a → c ∈ al c1g b → c ≠ a → c ∈ al c1g a) ∧
    2 ∈ al (link_aligned (add_node c1ga 'C' 1).1 c1ga.num_nodes (al c1ga 2) 2)
      c1ga.num_nodes := by
  have hra : Reachable c1ga :=
    Reachable.base ("ACGT".toList) (List.replicate ("ACGT".toList).length 1)
      c1ga (by decide)
  have hr : Reachable c1g :=
    Reachable.step c1ga [0, 1, 2, 3] [0, 1, 2, 3] ("ACCT".toList)
      (List.replicate 4 1) c1g hra (by decide)
  refine ⟨(C6_aligned_relation_symmetric_and_closed.1 c1g hr).1,
    (C6_aligned_relation_symmetric_and_closed.1 c1g hr).2,
    (C6_aligned_relation_symmetric_and_closed.2 c1ga 'C' 2
      (reachable_ginv hra).1 (by decide)).1⟩

theorem update_first_edge_set (b en l : Nat) (w : ℤ) :
    ∀ es : List Edge,
    es.any (fun e => e.begin_node_id == b && e.end_node_id == en) = true →
    ∃ j, j < es.length ∧
      (es.getD j default).begin_node_id = b ∧
      (es.getD j default).end_node_id = en ∧
      update_first_edge es b en l w =
        es.set j (edge_add_sequence (es.getD j default) l w) := by
  intro es
  induction es with
  | nil =>
    intro h
    exact absurd h (by simp)
  | cons e rest ih =>
    intro h
    rw [update_first_edge]
    by_cases he : (e.begin_node_id == b && e.end_node_id == en) = true
    · rw [if_pos he]
      simp only [Bool.and_eq_true, beq_iff_eq] at he
      exact ⟨0, by simp, by simpa using he.1, by simpa using he.2, by simp⟩
    · rw [if_neg he]
      have h' : rest.any (fun e => e.begin_node_id == b && e.end_node_id == en)
          = true := by
        simpa [he] using h
      obtain ⟨j, hj, hb', he', heq⟩ := ih h'
      refine ⟨j + 1, by simpa using hj, by simpa using hb',
        by simpa using he', ?_⟩
      simp only [List.getD_cons_succ, List.set_cons_succ]
      rw [heq]

/-- C5.  add_edge is an idempotent merge: in every reachable state each
ordered node pair carries at most one edge; an add_edge call on an
existing pair rewrites that one edge in place, adding the weight and the
current sequence index; and inserting two sequences over the same node
pair yields exactly one edge whose total weight is the sum of both
contributions and whose labels are both sequence indices. -/
theorem C5_add_edge_idempotent_merge :
    (∀ g : Graph, Reachable g → (edgePairs g).Nodup) ∧
    (∀ (g : Graph) (b en : Nat) (w : ℤ), b < g.num_nodes → en < g.num_nodes →
      (b, en) ∈ edgePairs g →
      ∃ j, j < g.edges.length ∧
        (g.edges.getD j default).begin_node_id = b ∧
        (g.edges.getD j default).end_node_id = en ∧
        add_edge g b en w = .ok { g with edges := g.edges.set j (edge_add_sequence (g.edges.getD j default) g.num_sequences w) }) ∧
    (∃ g1 g2 : Graph,
      createGraph ("AB".toList) [1, 2] = .ok g1 ∧
      add_alignment g1 [0, 1] [0, 1] ("AB".toList) [3, 4] = .ok g2 ∧
      g2.edges.length = 1 ∧
      (g2.edges.getD 0 default).begin_node_id = 0 ∧
      (g2.edges.getD 0 default).end_node_id = 1 ∧
      (g2.edges.getD 0 default).total_weight = (1 + 2) + (3 + 4) ∧
      (g2.edges.getD 0 default).sequence_labels = [0, 1]) := by
  refine ⟨fun g hr => (reachable_ginv hr).1.2.1, ?_, ?_⟩
  · intro g b en w hb hen hmem
    have hany : g.edges.any
        (fun e => e.begin_node_id == b && e.end_node_id == en) = true := by
      obtain ⟨e, he, heq⟩ := List.mem_map.mp hmem
      refine List.any_eq_true.mpr ⟨e, he, ?_⟩
      have h1 := (Prod.mk.injEq .. ▸ heq).1
      have h2 := (Prod.mk.injEq .. ▸ heq).2
      simp [h1, h2]
    obtain ⟨j, hj, hb', he', heq⟩ :=
      update_first_edge_set b en g.num_sequences w g.edges hany
    refine ⟨j, hj, hb', he', ?_⟩
    rw [add_edge, if_pos ⟨hb, hen⟩, if_pos hany, heq]
  · exact ⟨okD (createGraph ("AB".toList) [1, 2]) gNeg,
      okD (add_alignment (okD (createGraph ("AB".toList) [1, 2]) gNeg)
        [0, 1] [0, 1] ("AB".toList) [3, 4]) gNeg,
      by decide, by decide, by decide, by decide, by decide, by decide, by decide⟩

/-- C5, witness: pair uniqueness on the concrete two-node graph, and the
in-place merge of an add_edge call on the existing pair (0,1) of gNeg. -/
theorem C5_witness :
    (edgePairs c3g1).Nodup ∧
    ∃ j, j < gNeg.edges.length ∧
      (gNeg.edges.getD j default).begin_node_id = 0 ∧
      (gNeg.edges.getD j default).end_node_id = 1 ∧
      add_edge gNeg 0 1 2 = .ok { gNeg with edges := gNeg.edges.set j (edge_add_sequence (gNeg.edges.getD j default) gNeg.num_sequences 2) } :=
  ⟨C5_add_edge_idempotent_merge.1 c3g1
      (Reachable.base ("AB".toList) (List.replicate ("AB".toList).length 1)
        c3g1 (by decide)),
    C5_add_edge_idempotent_merge.2.1 gNeg 0 1 2 (by decide) (by decide)
      (by decide)⟩

theorem add_node_num_nodes (g : Graph) (c : Char) (t : Nat) :
    (add_node g c t).1.num_nodes = g.num_nodes + 1 := by
  simp [add_node, Graph.num_nodes]

theorem add_edge_fresh {g : Graph} {w : ℤ}
    (hend : ∀ ed ∈ g.edges, ed.end_node_id < g.num_nodes)
    {b en : Nat} (hb : b < g.num_nodes + 1) (hen : en = g.num_nodes)
    (c : Char) (t : Nat) :
    add_edge (add_node g c t).1 b en w =
      .ok { (add_node g c t).1 with edges := g.edges ++ [⟨b, en, [g.num_sequences], w⟩] } := by
  have hn1 : (add_node g c t).1.num_nodes = g.num_nodes + 1 :=
    add_node_num_nodes g c t
  have hedges : (add_node g c t).1.edges = g.edges := rfl
  rw [add_edge, if_pos (by rw [hn1]; omega), hedges]
  rw [if_neg ?hneg]
  case hneg =>
    simp only [List.any_eq_true, not_exists]
    intro ed
    simp only [Bool.and_eq_true, beq_iff_eq, not_and]
    intro hmem _ h2
    have := hend ed hmem
    omega
  rfl

theorem chain_nodes_spec (seq : List Char) (ws : List ℤ) :
    ∀ (steps i : Nat) (g : Graph),
    (∀ ed ∈ g.edges, ed.end_node_id < g.num_nodes) →
    1 ≤ i → i + steps ≤ ws.length →
    ∃ g', chain_nodes seq ws steps i g = .ok g' ∧
      g'.nodes = g.nodes ++ (List.range steps).map (fun k => (⟨g.num_nodes + k, seq.getD (i + k) ' ', 0, []⟩ : Node)) ∧
      g'.edges = g.edges ++ (List.range steps).map (fun k => (⟨g.num_nodes + k - 1, g.num_nodes + k, [g.num_sequences], ws.getD (i + k - 1) 0 + ws.getD (i + k) 0⟩ : Edge)) ∧
      g'.num_sequences = g.num_sequences := by
  intro steps
  induction steps with
  | zero =>
    intro i g hend hi hlen
    refine ⟨g, ?_, by simp, by simp, rfl⟩
    rw [chain_nodes]
  | succ n ih =>
    intro i g hend hi hlen
    have hw1 : idxW ws ((i : Int) - 1) = .ok (ws.getD (i - 1) 0) := by
      rw [idxW, if_pos ⟨by omega, by omega⟩]
      congr 1
      congr 1
      omega
    have hw2 : idxW ws (i : Int) = .ok (ws.getD i 0) := by
      rw [idxW, if_pos ⟨by omega, by omega⟩]
      simp
    have hadd := @add_edge_fresh g (ws.getD (i - 1) 0 + ws.getD i 0) hend
      (g.num_nodes - 1) g.num_nodes (by omega) rfl (seq.getD i ' ') 0
    set g2 : Graph := { (add_node g (seq.getD i ' ') 0).1 with
      edges := g.edges ++ [⟨g.num_nodes - 1, g.num_nodes, [g.num_sequences], ws.getD (i - 1) 0 + ws.getD i 0⟩] } with hg2def
    have hend2 : ∀ ed ∈ g2.edges, ed.end_node_id < g2.num_nodes := by
      intro ed hmem
      have hn2 : g2.num_nodes = g.num_nodes + 1 := add_node_num_nodes g _ 0
      rw [hg2def] at hmem
      simp only [List.mem_append, List.mem_singleton] at hmem
      rcases hmem with h | rfl
      · have := hend ed h
        omega
      · simp only [hn2]
        omega
    obtain ⟨g', hrec, hns, hes, hseq⟩ := ih (i + 1) g2 hend2 (by omega) (by omega)
    refine ⟨g', ?_, ?_, ?_, ?_⟩
    · rw [chain_nodes]
      simp only [bind_ok]
      exact ⟨_, hw1, _, hw2, g2, hadd, hrec⟩
    · rw [hns]
      have hn2nodes : g2.nodes = g.nodes ++ [(⟨g.num_nodes, seq.getD i ' ', 0, []⟩ : Node)] := rfl
      have hn2 : g2.num_nodes = g.num_nodes + 1 := add_node_num_nodes g _ 0
      rw [hn2nodes, hn2, List.append_assoc]
      congr 1
      rw [List.range_succ_eq_map, List.map_cons, List.map_map,
        List.singleton_append]
      refine congrArg₂ List.cons (by simp) ?_
      refine List.map_congr_left ?_
      intro a ha
      simp only [Function.comp_apply, Nat.succ_eq_add_one]
      have h1 : g.num_nodes + 1 + a = g.num_nodes + (a + 1) := by omega
      have h2 : i + 1 + a = i + (a + 1) := by omega
      rw [h1, h2]
    · rw [hes]
      have he2 : g2.edges = g.edges ++ [(⟨g.num_nodes - 1, g.num_nodes, [g.num_sequences], ws.getD (i - 1) 0 + ws.getD i 0⟩ : Edge)] := rfl
      have hn2 : g2.num_nodes = g.num_nodes + 1 := add_node_num_nodes g _ 0
      have hs2 : g2.num_sequences = g.num_sequences := rfl
      rw [he2, hn2, hs2, List.append_assoc]
      congr 1
      rw [List.range_succ_eq_map, List.map_cons, List.map_map,
        List.singleton_append]
      refine congrArg₂ List.cons (by simp) ?_
      refine List.map_congr_left ?_
      intro a ha
      simp only [Function.comp_apply, Nat.succ_eq_add_one]
      have h1 : g.num_nodes + 1 + a - 1 = g.num_nodes + (a + 1) - 1 := by omega
      have h2 : g.num_nodes + 1 + a = g.num_nodes + (a + 1) := by omega
      have h3 : i + 1 + a - 1 = i + (a + 1) - 1 := by omega
      have h4 : i + 1 + a = i + (a + 1) := by omega
      rw [h1, h2, h3, h4]
    · rw [hseq]
      rfl

/-- C8.  add_sequence over [begin, end) returns -1 exactly when the range
is empty; otherwise it appends exactly end - begin fresh nodes carrying
the range's characters in order, chains each consecutive pair with an
edge weighted by the sum of the two adjacent per-position weights
(labelled with the current sequence index), and returns the id of the
first created node. -/
theorem C8_add_sequence_chains_range {g : Graph} {seq : List Char}
    {ws : List ℤ} {b e : Nat}
    (hend : ∀ ed ∈ g.edges, ed.end_node_id < g.num_nodes)
    (hwl : ws.length = seq.length) (hbe : b ≤ e) (hel : e ≤ seq.length) :
    (b = e → add_sequence g seq ws b e = .ok (g, -1)) ∧
    (b < e → ∃ g', add_sequence g seq ws b e = .ok (g', (g.num_nodes : Int)) ∧
      (g.num_nodes : Int) ≠ -1 ∧
      g'.nodes = g.nodes ++ (List.range (e - b)).map (fun k => (⟨g.num_nodes + k, seq.getD (b + k) ' ', 0, []⟩ : Node)) ∧
      g'.edges = g.edges ++ (List.range (e - b - 1)).map (fun k => (⟨g.num_nodes + k, g.num_nodes + k + 1, [g.num_sequences], ws.getD (b + k) 0 + ws.getD (b + k + 1) 0⟩ : Edge))) := by
  constructor
  · intro hbeq
    rw [add_sequence, if_pos (by simpa using hbeq)]
  · intro hlt
    have hendA : ∀ ed ∈ (add_node g (seq.getD b ' ') 0).1.edges,
        ed.end_node_id < (add_node g (seq.getD b ' ') 0).1.num_nodes := by
      intro ed hmem
      have := hend ed hmem
      rw [add_node_num_nodes]
      omega
    obtain ⟨g2, hchain, hns, hes, -⟩ := chain_nodes_spec seq ws (e - (b + 1))
      (b + 1) (add_node g (seq.getD b ' ') 0).1 hendA (by omega) (by omega)
    refine ⟨g2, ?_, by omega, ?_, ?_⟩
    · rw [add_sequence, if_neg (by simpa using Nat.ne_of_lt hlt),
        if_pos ⟨by omega, hel⟩]
      simp only [bind_ok]
      exact ⟨g2, hchain, rfl⟩
    · rw [hns]
      have hnodesA : (add_node g (seq.getD b ' ') 0).1.nodes =
          g.nodes ++ [(⟨g.num_nodes, seq.getD b ' ', 0, []⟩ : Node)] := rfl
      rw [hnodesA, add_node_num_nodes, List.append_assoc]
      congr 1
      have hsteps : e - b = (e - (b + 1)) + 1 := by omega
      rw [hsteps, List.range_succ_eq_map, List.map_cons, List.map_map,
        List.singleton_append]
      refine congrArg₂ List.cons (by simp) ?_
      refine List.map_congr_left ?_
      intro a ha
      simp only [Function.comp_apply, Nat.succ_eq_add_one]
      have h1 : g.num_nodes + 1 + a = g.num_nodes + (a + 1) := by omega
      have h2 : b + 1 + a = b + (a + 1) := by omega
      rw [h1, h2]
    · rw [hes]
      have hedgesA : (add_node g (seq.getD b ' ') 0).1.edges = g.edges := rfl
      have hseqA : (add_node g (seq.getD b ' ') 0).1.num_sequences =
          g.num_sequences := rfl
      rw [hedgesA, hseqA, add_node_num_nodes]
      congr 1
      have hsteps : e - (b + 1) = e - b - 1 := by omega
      rw [hsteps]
      refine List.map_congr_left ?_
      intro a ha
      have h1 : g.num_nodes + 1 + a - 1 = g.num_nodes + a := by omega
      have h2 : g.num_nodes + 1 + a = g.num_nodes + a + 1 := by omega
      have h3 : b + 1 + a - 1 = b + a := by omega
      have h4 : b + 1 + a = b + a + 1 := by omega
      rw [h1, h2, h3, h4]

/-- C8, witness: appending the two-character range [0,2) of "AB" with
weights [1,2] to the three-node graph gNeg. -/
theorem C8_witness :
    (0 = 2 → add_sequence gNeg ("AB".toList) [1, 2] 0 2 = .ok (gNeg, -1)) ∧
    (0 < 2 → ∃ g', add_sequence gNeg ("AB".toList) [1, 2] 0 2 = .ok (g', (gNeg.num_nodes : Int)) ∧
      (gNeg.num_nodes : Int) ≠ -1 ∧
      g'.nodes = gNeg.nodes ++ (List.range (2 - 0)).map (fun k => (⟨gNeg.num_nodes + k, ("AB".toList).getD (0 + k) ' ', 0, []⟩ : Node)) ∧
      g'.edges = gNeg.edges ++ (List.range (2 - 0 - 1)).map (fun k => (⟨gNeg.num_nodes + k, gNeg.num_nodes + k + 1, [gNeg.num_sequences], ([1, 2] : List ℤ).getD (0 + k) 0 + ([1, 2] : List ℤ).getD (0 + k + 1) 0⟩ : Edge))) :=
  C8_add_sequence_chains_range (by decide) (by decide) (by decide) (by decide)

theorem zeroCard_le (g : Graph) (marks : List Nat) :
    zeroCard g marks ≤ g.num_nodes := by
  have := Finset.card_filter_le (Finset.range g.num_nodes)
    (fun i => marks.getD i 0 = 0)
  simpa [zeroCard] using this

theorem zeroCard_mono {g : Graph} {ma mb : List Nat}
    (h : ∀ i, ma.getD i 0 ≤ mb.getD i 0) :
    zeroCard g mb ≤ zeroCard g ma := by
  apply Finset.card_le_card
  intro i hi
  simp only [zeroCard, Finset.mem_filter, Finset.mem_range] at hi ⊢
  have := h i
  exact ⟨hi.1, by omega⟩

theorem zeroCard_lt {g : Graph} {ma mb : List Nat}
    (hmono : ∀ i, ma.getD i 0 ≤ mb.getD i 0) {j : Nat} (hj : j < g.num_nodes)
    (hja : ma.getD j 0 = 0) (hjb : mb.getD j 0 ≠ 0) :
    zeroCard g mb < zeroCard g ma := by
  apply Finset.card_lt_card
  rw [Finset.ssubset_def]
  constructor
  · intro i hi
    simp only [zeroCard, Finset.mem_filter, Finset.mem_range] at hi ⊢
    have := hmono i
    exact ⟨hi.1, by omega⟩
  · intro hsub
    have hjmem : j ∈ (Finset.range g.num_nodes).filter
        (fun i => ma.getD i 0 = 0) := by
      simp only [Finset.mem_filter, Finset.mem_range]
      exact ⟨hj, hja⟩
    have := hsub hjmem
    simp only [Finset.mem_filter, Finset.mem_range] at this
    exact hjb this.2

theorem dfs_fold_ok_of_node (g : Graph) (hwf : WF g) (fuel : Nat)
    (hN : NodeOkStmt g fuel) : FoldOkStmt g fuel := by
  intro l
  induction l with
  | nil =>
    intro dst marks hm hg hz
    left
    exact ⟨(dst, marks), by simp [pure, Except.pure]⟩
  | cons p rest ih =>
    intro dst marks hm hg hz
    rw [List.foldlM_cons]
    rcases hN dst marks p hm (hg p (List.mem_cons_self ..)) hz with
      ⟨st1, hok⟩ | ⟨herr, hcyc⟩
    · obtain ⟨d1, m1⟩ := st1
      rw [hok]
      simp only [Bind.bind, Except.bind]
      have hpost := dfs_node g hwf fuel dst marks p d1 m1 hok hm
      apply ih d1 m1 hpost.2.1
      · intro q hq u hu
        exact hg q (List.mem_cons_of_mem _ hq) u ((hpost.1.2.2.2 u).mp hu)
      · exact lt_of_le_of_lt (zeroCard_mono hpost.1.2.2.1) hz
    · right
      rw [herr]
      exact ⟨by simp [Bind.bind, Except.bind], hcyc⟩

theorem dfs_node_ok (g : Graph) (hwf : WF g) : ∀ fuel, NodeOkStmt g fuel := by
  intro fuel
  induction fuel with
  | zero =>
    intro dst marks v hm hg hz
    exact absurd hz (by omega)
  | succ fuel ih =>
    intro dst marks v hm hg hz
    rw [visit_node]
    simp only [beq_iff_eq]
    by_cases h1 : marks.getD v 0 = 1
    · right
      rw [if_pos h1]
      exact ⟨rfl, ⟨v, hg v h1⟩⟩
    · rw [if_neg h1]
      by_cases h0 : marks.getD v 0 = 0
      · rw [if_pos h0]
        have hm1 : MarksOk g (marks.set v 1) := by
          refine ⟨by rw [List.length_set]; exact hm.1, ?_⟩
          intro i
          rw [getD_set_cases]
          split
          · omega
          · exact hm.2 i
        by_cases hv : v < g.num_nodes
        · have hz1 : zeroCard g (marks.set v 1) < fuel := by
            have hlt := @zeroCard_lt g marks (marks.set v 1)
              (fun i => by
                rw [getD_set_cases]
                split
                · rename_i hc
                  rw [← hc.1]
                  omega
                · exact le_refl _)
              v hv h0 (by rw [getD_set_self (by rw [hm.1]; exact hv)]; omega)
            omega
          have hg1 : ∀ p ∈ (in_edges g v).map (fun e => e.begin_node_id),
              GrayHyp g (marks.set v 1) p := by
            intro p hp u hu
            obtain ⟨e, he, rfl⟩ := List.mem_map.mp hp
            obtain ⟨heg, hev⟩ := mem_in_edges.mp he
            have hpv : edgeRel g e.begin_node_id v := ⟨e, heg, rfl, hev⟩
            rw [getD_set_cases] at hu
            split at hu
            · rename_i hc
              rw [← hc.1]
              exact Relation.TransGen.single hpv
            · exact Relation.TransGen.head hpv (hg u hu)
          rcases dfs_fold_ok_of_node g hwf fuel ih
              ((in_edges g v).map (fun e => e.begin_node_id)) dst
              (marks.set v 1) hm1 hg1 hz1 with ⟨st2, hf⟩ | ⟨hf, hcyc⟩
          · left
            refine ⟨(st2.1 ++ [v], st2.2.set v 2), ?_⟩
            rw [hf]
            simp [Bind.bind, Except.bind]
          · right
            rw [hf]
            exact ⟨by simp [Bind.bind, Except.bind], hcyc⟩
        · have hin : in_edges g v = [] := by
            rw [in_edges, List.filter_eq_nil_iff]
            intro e he
            have := (hwf.2.1 e he).2
            simp only [beq_iff_eq]
            omega
          left
          rw [hin]
          exact ⟨(dst ++ [v], (marks.set v 1).set v 2),
            by simp [pure, Except.pure, Bind.bind, Except.bind]⟩
      · rw [if_neg h0]
        exact Or.inl ⟨(dst, marks), rfl⟩

theorem sort_loop_dichotomy (g : Graph) (hwf : WF g) :
    ∀ (fuel : Nat) (dst marks : List Nat) (i : Nat),
    MarksOk g marks → NoGray marks → zeroCard g marks < fuel →
    (∃ dst', sort_loop g fuel dst marks i = .ok dst') ∨
    (sort_loop g fuel dst marks i = .error .graphCorruption ∧ Cyclic g) := by
  intro fuel
  induction fuel with
  | zero =>
    intro dst marks i hm hng hz
    exact absurd hz (by omega)
  | succ fuel ih =>
    intro dst marks i hm hng hz
    rw [sort_loop]
    cases hfind : find_unmarked g marks (g.num_nodes - i) i with
    | none =>
      left
      exact ⟨dst, rfl⟩
    | some j =>
      obtain ⟨hij, hjn, hjz, -⟩ := find_unmarked_some _ i j hfind
      have hrem : 1 ≤ g.num_nodes - i := by
        by_contra hc
        rw [show g.num_nodes - i = 0 from by omega, find_unmarked] at hfind
        exact Option.noConfusion hfind
      have hjn' : j < g.num_nodes := by omega
      have hnid : nodeIdAt g j = j := hwf.1 j hjn'
      have hgj : GrayHyp g marks (nodeIdAt g j) := fun u hu =>
        absurd hu (hng u)
      have hzn : zeroCard g marks < g.num_nodes + 1 := by
        have := zeroCard_le g marks
        omega
      simp only []
      rcases dfs_node_ok g hwf (g.num_nodes + 1) dst marks (nodeIdAt g j)
          hm hgj hzn with ⟨st1, hv⟩ | ⟨hv, hcyc⟩
      · obtain ⟨d1, m1⟩ := st1
        rw [hv]
        have hpost := dfs_node g hwf (g.num_nodes + 1) dst marks
          (nodeIdAt g j) d1 m1 hv hm
        have hm2 : m1.getD j 0 = 2 := by
          have := hpost.2.2.1 (by rw [hnid]; exact hjn')
          rwa [hnid] at this
        have hz1 : zeroCard g m1 < fuel := by
          have hlt := @zeroCard_lt g marks m1 hpost.1.2.2.1 j hjn'
            (by rwa [hnid] at hjz) (by omega)
          omega
        exact ih d1 m1 j hpost.2.1
          (fun u hu => hng u ((hpost.1.2.2.2 u).mp hu)) hz1
      · right
        rw [hv]
        exact ⟨rfl, hcyc⟩

theorem cyclic_of_edges_eq {g g' : Graph} (he : g'.edges = g.edges)
    (h : Cyclic g') : Cyclic g := by
  obtain ⟨v, hv⟩ := h
  refine ⟨v, Relation.TransGen.mono ?_ hv⟩
  rintro a b ⟨e, hm, h1, h2⟩
  exact ⟨e, he ▸ hm, h1, h2⟩

theorem topological_sort_dichotomy {g : Graph} (hwf : WF g)
    (hs : g.is_sorted = false) :
    (∃ g', topological_sort g = .ok g') ∨
    (topological_sort g = .error .graphCorruption ∧ Cyclic g) := by
  rw [topological_sort, if_neg (by simp [hs])]
  have hm0 : MarksOk g (List.replicate g.num_nodes 0) :=
    ⟨List.length_replicate .., fun i => by rw [getD_replicate]; omega⟩
  have hng0 : NoGray (List.replicate g.num_nodes 0) := by
    intro u
    rw [getD_replicate]
    omega
  have hz0 : zeroCard g (List.replicate g.num_nodes 0) < g.num_nodes + 1 := by
    have := zeroCard_le g (List.replicate g.num_nodes 0)
    omega
  rcases sort_loop_dichotomy g hwf (g.num_nodes + 1) []
      (List.replicate g.num_nodes 0) 0 hm0 hng0 hz0 with
    ⟨dst, hloop⟩ | ⟨hloop, hcyc⟩
  · rw [hloop]
    have hinv0 : DfsInv g [] (List.replicate g.num_nodes 0) := by
      refine ⟨fun i => ?_, List.nodup_nil, by simp, by simp⟩
      rw [getD_replicate]
      simp
    obtain ⟨hnd, hbd, hcomp, hfwd⟩ := sort_loop_ok g hwf (g.num_nodes + 1)
      [] _ 0 dst hloop hm0 hinv0 hng0 (by omega)
    have hperm : dst.Perm (List.range g.num_nodes) := by
      refine (List.perm_ext_iff_of_nodup hnd (List.nodup_range _)).mpr ?_
      intro a
      rw [List.mem_range]
      exact ⟨fun h => hbd a h, fun h => hcomp a h⟩
    have hlen : dst.length = g.num_nodes := by
      rw [hperm.length_eq, List.length_range]
    have hchk : is_topologically_sorted { g with sorted_nodes_ids := dst }
        = true := by
      apply topo_check_of_fwd
      intro e he k hk hget
      exact Or.inr (hfwd e he k hk hget)
    left
    simp only []
    rw [if_pos (by simpa [Graph.num_nodes] using hlen.symm), if_pos hchk]
    exact ⟨_, rfl⟩
  · right
    rw [hloop]
    exact ⟨rfl, hcyc⟩

/-- C9.  On a well-formed unsorted graph the topological sort's DFS
succeeds exactly when the graph is acyclic, and on a graph containing a
directed cycle it signals GraphCorruption (the in-progress-node assert)
rather than producing an order. -/
theorem C9_dfs_corruption_iff_cycle {g : Graph} (hwf : WF g)
    (hs : g.is_sorted = false) :
    ((∃ g', topological_sort g = .ok g') ↔ ¬ Cyclic g) ∧
    (Cyclic g → topological_sort g = .error .graphCorruption) := by
  have hd := topological_sort_dichotomy hwf hs
  have hok_imp : ∀ g', topological_sort g = .ok g' → ¬ Cyclic g := by
    intro g' hok hcyc
    obtain ⟨⟨dst, hdst⟩, hvo⟩ := topological_sort_valid hwf hs hok
    have hcyc' : Cyclic g' := by
      refine cyclic_of_edges_eq ?_ hcyc
      rw [hdst]
    exact acyclic_of_valid_order hvo hcyc'
  constructor
  · constructor
    · rintro ⟨g', hok⟩
      exact hok_imp g' hok
    · intro hacyc
      rcases hd with h | ⟨-, hcyc⟩
      · exact h
      · exact absurd hcyc hacyc
  · intro hcyc
    rcases hd with ⟨g', hok⟩ | ⟨herr, -⟩
    · exact absurd hcyc (hok_imp g' hok)
    · exact herr

/-- C9, witness: the two-node cycle graph gCyc. -/
theorem C9_witness :
    ((∃ g', topological_sort gCyc = .ok g') ↔ ¬ Cyclic gCyc) ∧
    (Cyclic gCyc → topological_sort gCyc = .error .graphCorruption) := by
  have hwf : WF gCyc := by
    refine ⟨fun i hi => ?_, by unfold EdgesBounded; decide, fun x a ha => ?_⟩
    · have hi2 : i < 2 := by simpa [Graph.num_nodes, gCyc] using hi
      interval_cases i <;> rfl
    · have hx : al gCyc x = [] := by
        match x with
        | 0 => rfl
        | 1 => rfl
        | n + 2 => exact al_oob (by simp [gCyc])
      rw [hx] at ha
      exact absurd ha (List.not_mem_nil a)
  exact C9_dfs_corruption_iff_cycle hwf rfl

theorem getD_replicate2 {α : Type} (n i : Nat) (d : α) :
    (List.replicate n d).getD i d = d := by
  rw [List.getD_eq_getElem?_getD, List.getElem?_replicate]
  split <;> rfl

theorem hbinv_update {g : Graph} {scores : List ℤ} {preds : List Int}
    (hinv : HbInv g scores preds) {node : Nat} (hnode : node < g.num_nodes)
    {w : ℤ} (hw : 0 < w) {b : Nat} (hb : b < g.num_nodes) :
    HbInv g (scores.set node w) (preds.set node (b : Int)) := by
  obtain ⟨hsl, hpl, hnn, hpe, hpz⟩ := hinv
  refine ⟨by rw [List.length_set]; exact hsl,
    by rw [List.length_set]; exact hpl, ?_, ?_, ?_⟩
  · intro i
    rw [getD_set_cases]
    split
    · omega
    · exact hnn i
  · intro i
    rw [getD_set_cases]
    split
    · right
      constructor
      · exact Int.natCast_nonneg b
      · simpa using hb
    · exact hpe i
  · intro i hi
    rw [getD_set_cases] at hi
    split at hi
    · exact absurd hi (by omega)
    · rename_i hc
      rw [getD_set_cases]
      split
      · rename_i hc2
        exact absurd ⟨hc2.1, by omega⟩ hc
      · exact hpz i hi

theorem hb_inner_ok {g : Graph} {node : Nat} (hnode : node < g.num_nodes) :
    ∀ (es : List Edge) (scores : List ℤ) (preds : List Int),
    (∀ e ∈ es, 0 < e.total_weight ∧ e.begin_node_id < g.num_nodes) →
    HbInv g scores preds →
    ∃ sp, hb_inner node es scores preds = .ok sp ∧ HbInv g sp.1 sp.2 := by
  intro es
  induction es with
  | nil =>
    intro scores preds hes hinv
    exact ⟨(scores, preds), by rw [hb_inner], hinv⟩
  | cons e rest ih =>
    intro scores preds hes hinv
    obtain ⟨hw, hb⟩ := hes e (List.mem_cons_self ..)
    have hrest : ∀ e' ∈ rest, 0 < e'.total_weight ∧
        e'.begin_node_id < g.num_nodes :=
      fun e' he' => hes e' (List.mem_cons_of_mem _ he')
    rw [hb_inner]
    by_cases hlt : scores.getD node 0 < e.total_weight
    · rw [if_pos hlt]
      exact ih _ _ hrest (hbinv_update hinv hnode hw hb)
    · rw [if_neg hlt]
      by_cases heq : (scores.getD node 0 == e.total_weight) = true
      · rw [if_pos heq]
        have hpne : preds.getD node (-1) ≠ -1 := by
          intro hp
          have hz := hinv.2.2.2.2 node hp
          have heqv : scores.getD node 0 = e.total_weight := by simpa using heq
          omega
        have hpe := (hinv.2.2.2.1 node).resolve_left hpne
        have hidx : idxW scores (preds.getD node (-1)) =
            .ok (scores.getD (preds.getD node (-1)).toNat 0) := by
          rw [idxW, if_pos ⟨hpe.1, by rw [hinv.1]; exact hpe.2⟩]
        by_cases hcmp : scores.getD (preds.getD node (-1)).toNat 0 ≤
            scores.getD e.begin_node_id 0
        · obtain ⟨sp, hok, hinv'⟩ := ih _ _ hrest (hbinv_update hinv hnode hw hb)
          refine ⟨sp, ?_, hinv'⟩
          rw [bind_ok]
          refine ⟨_, hidx, ?_⟩
          rw [if_pos hcmp]
          exact hok
        · obtain ⟨sp, hok, hinv'⟩ := ih _ _ hrest hinv
          refine ⟨sp, ?_, hinv'⟩
          rw [bind_ok]
          refine ⟨_, hidx, ?_⟩
          rw [if_neg hcmp]
          exact hok
      · rw [if_neg heq]
        exact ih _ _ hrest hinv

theorem hb_scan_node_ok {g : Graph} {node : Nat} (hnode : node < g.num_nodes)
    (hpos : PosWeights g) (hwf : WF g) {scores : List ℤ} {preds : List Int}
    (hinv : HbInv g scores preds) :
    ∃ sp, hb_scan_node g node scores preds = .ok sp ∧ HbInv g sp.1 sp.2 := by
  have hes : ∀ e ∈ in_edges g node,
      0 < e.total_weight ∧ e.begin_node_id < g.num_nodes := by
    intro e he
    obtain ⟨heg, -⟩ := mem_in_edges.mp he
    exact ⟨hpos e heg, (hwf.2.1 e heg).1⟩
  obtain ⟨sp1, hok1, hinv0⟩ := hb_inner_ok hnode (in_edges g node) scores
    preds hes hinv
  obtain ⟨s1, p1⟩ := sp1
  have hinv1 : HbInv g s1 p1 := hinv0
  rw [hb_scan_node]
  by_cases hp : (p1.getD node (-1) != -1) = true
  · refine ⟨(s1.set node (s1.getD node 0 +
      s1.getD (u32 (p1.getD node (-1))) 0), p1), ?_, ?_⟩
    · simp only [bind_ok]
      refine ⟨(s1, p1), hok1, ?_⟩
      rw [if_pos hp]
    · obtain ⟨hsl, hpl, hnn, hpe, hpz⟩ := hinv1
      refine ⟨by rw [List.length_set]; exact hsl, hpl, ?_, hpe, ?_⟩
      · intro i
        rw [getD_set_cases]
        split
        · have h1 := hnn node
          have h2 := hnn (u32 (p1.getD node (-1)))
          omega
        · exact hnn i
      · intro i hi
        rw [getD_set_cases]
        split
        · rename_i hc
          have hne : p1.getD node (-1) ≠ -1 := by simpa using hp
          exact absurd (by rw [hc.1]; exact hi) hne
        · exact hpz i hi
  · refine ⟨(s1, p1), ?_, hinv1⟩
    simp only [bind_ok]
    exact ⟨(s1, p1), hok1, by rw [if_neg hp]⟩

theorem hb_scan_ok {g : Graph} (hwf : WF g) (hpos : PosWeights g) :
    ∀ (l : List Nat) (scores : List ℤ) (preds : List Int) (maxid : Nat),
    (∀ v ∈ l, v < g.num_nodes) → HbInv g scores preds →
    ∃ r, hb_scan g l scores preds maxid = .ok r ∧ HbInv g r.1 r.2.1 := by
  intro l
  induction l with
  | nil =>
    intro scores preds maxid _ hinv
    exact ⟨(scores, preds, maxid), by rw [hb_scan], hinv⟩
  | cons v rest ih =>
    intro scores preds maxid hbv hinv
    obtain ⟨sp, hok, hinv'⟩ := hb_scan_node_ok
      (hbv v (List.mem_cons_self ..)) hpos hwf hinv
    obtain ⟨s1, p1⟩ := sp
    obtain ⟨r, hr, hrinv⟩ := ih s1 p1
      (if s1.getD maxid 0 < s1.getD v 0 then v else maxid)
      (fun u hu => hbv u (List.mem_cons_of_mem _ hu)) hinv'
    refine ⟨r, ?_, hrinv⟩
    rw [hb_scan]
    simp only [bind_ok]
    exact ⟨(s1, p1), hok, hr⟩

/-- C10.  In the heaviest-bundle scan the tie-break read
scores[predecessors[node_id]] is evaluated only after a predecessor has
been chosen whenever every edge weight is strictly positive, so the scan
completes; with a zero-weight edge (sequence AB inserted with uniform
weight 0) the first in-edge of node 1 reaches the equality branch while
predecessors[1] is still -1 and the scan traps on the out-of-bounds
read. -/
theorem C10_tiebreak_sentinel_read :
    (∀ g : Graph, WF g → PosWeights g →
      (∀ v ∈ g.sorted_nodes_ids, v < g.num_nodes) →
      ∃ r, hb_scan g g.sorted_nodes_ids (List.replicate g.num_nodes 0)
        (List.replicate g.num_nodes (-1)) 0 = .ok r) ∧
    hb_scan gZ gZ.sorted_nodes_ids (List.replicate gZ.num_nodes 0)
      (List.replicate gZ.num_nodes (-1)) 0 = .error .oobRead := by
  constructor
  · intro g hwf hpos hbv
    have hinv0 : HbInv g (List.replicate g.num_nodes 0)
        (List.replicate g.num_nodes (-1)) := by
      refine ⟨List.length_replicate .., List.length_replicate .., ?_, ?_, ?_⟩
      · intro i
        rw [getD_replicate2]
      · intro i
        left
        rw [getD_replicate2]
      · intro i _
        rw [getD_replicate2]
    obtain ⟨r, hr, -⟩ := hb_scan_ok hwf hpos g.sorted_nodes_ids _ _ 0 hbv hinv0
    exact ⟨r, hr⟩
  · decide

/-- C10, witness: the positive-weight two-sequence scenario graph. -/
theorem C10_witness :
    ∃ r, hb_scan c1g c1g.sorted_nodes_ids (List.replicate c1g.num_nodes 0)
      (List.replicate c1g.num_nodes (-1)) 0 = .ok r := by
  have hra : Reachable c1ga :=
    Reachable.base ("ACGT".toList) (List.replicate ("ACGT".toList).length 1)
      c1ga (by decide)
  have hr : Reachable c1g :=
    Reachable.step c1ga [0, 1, 2, 3] [0, 1, 2, 3] ("ACCT".toList)
      (List.replicate 4 1) c1g hra (by decide)
  exact C10_tiebreak_sentinel_read.1 c1g (reachable_ginv hr).1.1
    (by unfold PosWeights; decide) (by decide)

theorem valid_order_perm {g : Graph} (h : ValidOrder g) :
    g.sorted_nodes_ids.Perm (List.range g.num_nodes) := by
  obtain ⟨hnd, hlen, hbd, -⟩ := h
  have hsub : g.sorted_nodes_ids ⊆ List.range g.num_nodes := fun {x} hx =>
    List.mem_range.mpr (hbd x hx)
  exact (List.subperm_of_subset hnd hsub).perm_of_length_le
    (by rw [List.length_range]; omega)

theorem valid_order_mem {g : Graph} (h : ValidOrder g) {v : Nat}
    (hv : v < g.num_nodes) : v ∈ g.sorted_nodes_ids :=
  (valid_order_perm h).mem_iff.mpr (List.mem_range.mpr hv)

theorem mk_rank_fold_length (g : Graph) :
    ∀ (l : List Nat) (acc : List Nat),
    (l.foldl (fun acc i => acc.set (g.sorted_nodes_ids.getD i 0) i) acc).length
      = acc.length := by
  intro l
  induction l with
  | nil => intro acc; rfl
  | cons k rest ih =>
    intro acc
    rw [List.foldl_cons, ih, List.length_set]

theorem mk_rank_spec {g : Graph} (hvo : ValidOrder g) :
    ∀ v, v < g.num_nodes →
    (mk_rank g).getD v 0 = g.sorted_nodes_ids.indexOf v := by
  have hnd := hvo.1
  have hlen := hvo.2.1
  have hstep : ∀ (k : Nat), k ≤ g.num_nodes → ∀ (acc : List Nat),
      acc.length = g.num_nodes →
      ∀ v, v ∈ g.sorted_nodes_ids → g.sorted_nodes_ids.indexOf v < k →
      ((List.range k).foldl
        (fun acc i => acc.set (g.sorted_nodes_ids.getD i 0) i) acc).getD v 0
        = g.sorted_nodes_ids.indexOf v := by
    intro k
    induction k with
    | zero =>
      intro _ acc _ v _ hik
      omega
    | succ k ih =>
      intro hkn acc hacc v hvmem hik
      rw [List.range_succ, List.foldl_append, List.foldl_cons, List.foldl_nil]
      have hklt : k < g.sorted_nodes_ids.length := by omega
      have hvn : v < g.num_nodes := hvo.2.2.1 v hvmem
      have hgk : g.sorted_nodes_ids.getD k 0 =
          g.sorted_nodes_ids.get ⟨k, hklt⟩ := by
        rw [List.getD_eq_getElem?_getD, List.getElem?_eq_getElem hklt]
        rfl
      by_cases hke : g.sorted_nodes_ids.get ⟨k, hklt⟩ = v
      · have hidx : g.sorted_nodes_ids.indexOf v = k := by
          have h0 := List.indexOf_getElem hnd k hklt
          rw [List.get_eq_getElem] at hke
          rw [hke] at h0
          exact h0
        rw [hgk, hke, hidx]
        exact getD_set_self (by rw [mk_rank_fold_length, hacc]; omega)
      · have hne : g.sorted_nodes_ids.getD k 0 ≠ v := by
          rw [hgk]
          exact hke
        rw [getD_set_ne hne]
        apply ih (by omega) acc hacc v hvmem
        have : g.sorted_nodes_ids.indexOf v ≠ k := by
          intro hc
          apply hke
          subst hc
          rw [List.get_eq_getElem]
          exact List.getElem_indexOf _
        omega
  intro v hv
  rw [mk_rank]
  apply hstep g.num_nodes (le_refl _) (List.replicate g.num_nodes 0)
    (List.length_replicate ..) v (valid_order_mem hvo hv)
  have := List.indexOf_lt_length.mpr (valid_order_mem hvo hv)
  omega

theorem bc_invalidate_spec (g : Graph) (scores : List ℤ) (v : Nat) :
    (bc_invalidate g scores v).length = scores.length ∧
    (bc_invalidate g scores v).getD v 0 = scores.getD v 0 ∧
    (∀ i : Nat, (bc_invalidate g scores v).getD i 0 = scores.getD i 0 ∨
      (bc_invalidate g scores v).getD i 0 = -1) := by
  have hinner : ∀ (es : List Edge) (sc : List ℤ),
      (sc.length = scores.length ∧ sc.getD v 0 = scores.getD v 0 ∧
       ∀ i : Nat, sc.getD i 0 = scores.getD i 0 ∨ sc.getD i 0 = -1) →
      (es.foldl (fun sc' oe => if oe.begin_node_id ≠ v then sc'.set oe.begin_node_id (-1) else sc') sc).length = scores.length ∧
      (es.foldl (fun sc' oe => if oe.begin_node_id ≠ v then sc'.set oe.begin_node_id (-1) else sc') sc).getD v 0 = scores.getD v 0 ∧
      ∀ i : Nat, (es.foldl (fun sc' oe => if oe.begin_node_id ≠ v then sc'.set oe.begin_node_id (-1) else sc') sc).getD i 0 = scores.getD i 0 ∨
        (es.foldl (fun sc' oe => if oe.begin_node_id ≠ v then sc'.set oe.begin_node_id (-1) else sc') sc).getD i 0 = -1 := by
    intro es
    induction es with
    | nil => intro sc h; exact h
    | cons oe rest ih =>
      intro sc h
      rw [List.foldl_cons]
      apply ih
      by_cases hb : oe.begin_node_id ≠ v
      · rw [if_pos hb]
        refine ⟨by rw [List.length_set]; exact h.1, ?_, ?_⟩
        · rw [getD_set_ne hb]
          exact h.2.1
        · intro i
          rw [getD_set_cases]
          split
          · right
            rfl
          · exact h.2.2 i
      · rw [if_neg hb]
        exact h
  have houter : ∀ (oes : List Edge) (sc : List ℤ),
      (sc.length = scores.length ∧ sc.getD v 0 = scores.getD v 0 ∧
       ∀ i : Nat, sc.getD i 0 = scores.getD i 0 ∨ sc.getD i 0 = -1) →
      (oes.foldl (fun sc e => (in_edges g e.end_node_id).foldl (fun sc' oe => if oe.begin_node_id ≠ v then sc'.set oe.begin_node_id (-1) else sc') sc) sc).length = scores.length ∧
      (oes.foldl (fun sc e => (in_edges g e.end_node_id).foldl (fun sc' oe => if oe.begin_node_id ≠ v then sc'.set oe.begin_node_id (-1) else sc') sc) sc).getD v 0 = scores.getD v 0 ∧
      ∀ i : Nat, (oes.foldl (fun sc e => (in_edges g e.end_node_id).foldl (fun sc' oe => if oe.begin_node_id ≠ v then sc'.set oe.begin_node_id (-1) else sc') sc) sc).getD i 0 = scores.getD i 0 ∨
        (oes.foldl (fun sc e => (in_edges g e.end_node_id).foldl (fun sc' oe => if oe.begin_node_id ≠ v then sc'.set oe.begin_node_id (-1) else sc') sc) sc).getD i 0 = -1 := by
    intro oes
    induction oes with
    | nil => intro sc h; exact h
    | cons e rest ih =>
      intro sc h
      rw [List.foldl_cons]
      exact ih _ (hinner (in_edges g e.end_node_id) sc h)
  exact houter (out_edges g v) scores ⟨rfl, rfl, fun i => Or.inl rfl⟩

theorem getD_set_self2 {α : Type} {l : List α} {i : Nat} {x d : α}
    (h : i < l.length) : (l.set i x).getD i d = x := by
  rw [getD_set_cases, if_pos ⟨rfl, h⟩]

theorem bc_inner_spec (n : Nat) (node : Nat) :
    ∀ (es : List Edge) (scores : List ℤ) (preds : List Int),
    (∀ e ∈ es, 0 < e.total_weight ∧ e.begin_node_id < n) →
    scores.length = n → preds.length = n → node < n →
    (∀ i : Nat, scores.getD i 0 = -1 ∨ 0 ≤ scores.getD i 0) →
    ((scores.getD node 0 = -1 ∧ preds.getD node (-1) = -1) ∨
     (0 < scores.getD node 0 ∧ 0 ≤ preds.getD node (-1) ∧
      (preds.getD node (-1)).toNat < n ∧
      0 ≤ scores.getD (preds.getD node (-1)).toNat 0)) →
    ∃ sp, bc_inner node es scores preds = .ok sp ∧
      sp.1.length = n ∧ sp.2.length = n ∧
      (∀ i : Nat, i ≠ node → sp.1.getD i 0 = scores.getD i 0) ∧
      (∀ i : Nat, i ≠ node → sp.2.getD i (-1) = preds.getD i (-1)) ∧
      ((sp.1.getD node 0 = scores.getD node 0 ∧
        sp.2.getD node (-1) = preds.getD node (-1)) ∨
       (0 < sp.1.getD node 0 ∧ 0 ≤ sp.2.getD node (-1) ∧
        (sp.2.getD node (-1)).toNat < n ∧
        0 ≤ sp.1.getD (sp.2.getD node (-1)).toNat 0)) ∧
      ((∃ e ∈ es, scores.getD e.begin_node_id 0 ≠ -1 ∧ e.begin_node_id ≠ node) →
        0 < sp.1.getD node 0 ∧ sp.2.getD node (-1) ≠ -1) := by
  intro es
  induction es with
  | nil =>
    intro scores preds hes hsl hpl hnode hval hstate
    refine ⟨(scores, preds), by rw [bc_inner], hsl, hpl,
      fun i _ => rfl, fun i _ => rfl, Or.inl ⟨rfl, rfl⟩, ?_⟩
    rintro ⟨e, he, -⟩
    exact absurd he (List.not_mem_nil e)
  | cons e rest ih =>
    intro scores preds hes hsl hpl hnode hval hstate
    obtain ⟨hw, hb⟩ := hes e (List.mem_cons_self ..)
    have hrest : ∀ e' ∈ rest, 0 < e'.total_weight ∧ e'.begin_node_id < n :=
      fun e' he' => hes e' (List.mem_cons_of_mem _ he')
    rw [bc_inner]
    by_cases hskip : (scores.getD e.begin_node_id 0 == (-1 : ℤ)) = true
    · rw [if_pos hskip]
      obtain ⟨sp, hok, hc⟩ := ih scores preds hrest hsl hpl hnode hval hstate
      refine ⟨sp, hok, hc.1, hc.2.1, hc.2.2.1, hc.2.2.2.1, hc.2.2.2.2.1, ?_⟩
      rintro ⟨e', he', hne', hnn'⟩
      rcases List.mem_cons.mp he' with rfl | hmem
      · exact absurd (by simpa using hskip) hne'
      · exact hc.2.2.2.2.2 ⟨e', hmem, hne', hnn'⟩
    · rw [if_neg hskip]
      have hbs : scores.getD e.begin_node_id 0 ≠ -1 := by simpa using hskip
      have hbs0 : 0 ≤ scores.getD e.begin_node_id 0 :=
        (hval e.begin_node_id).resolve_left hbs
      -- facts about the updated state after taking (or re-taking) this edge
      have hupd : ∀ hr : True,
          (scores.set node e.total_weight).length = n ∧
          (preds.set node (e.begin_node_id : Int)).length = n ∧
          (∀ i : Nat, (scores.set node e.total_weight).getD i 0 = -1 ∨
            0 ≤ (scores.set node e.total_weight).getD i 0) ∧
          (0 < (scores.set node e.total_weight).getD node 0 ∧
           0 ≤ (preds.set node (e.begin_node_id : Int)).getD node (-1) ∧
           ((preds.set node (e.begin_node_id : Int)).getD node (-1)).toNat < n ∧
           0 ≤ (scores.set node e.total_weight).getD
             ((preds.set node (e.begin_node_id : Int)).getD node (-1)).toNat 0) := by
        intro _
        have hsetS : (scores.set node e.total_weight).getD node 0 =
            e.total_weight := @getD_set_self2 ℤ scores node e.total_weight 0 (by omega)
        have hsetP : (preds.set node (e.begin_node_id : Int)).getD node (-1) =
            (e.begin_node_id : Int) :=
          @getD_set_self2 Int preds node (e.begin_node_id : Int) (-1) (by omega)
        refine ⟨by rw [List.length_set]; exact hsl,
          by rw [List.length_set]; exact hpl, ?_, ?_⟩
        · intro i
          rw [getD_set_cases]
          split
          · right
            omega
          · exact hval i
        · refine ⟨by rw [hsetS]; exact hw, by rw [hsetP]; exact Int.natCast_nonneg _,
            by rw [hsetP]; simpa using hb, ?_⟩
          rw [hsetP]
          simp only [Int.toNat_natCast]
          rw [getD_set_cases]
          split
          · omega
          · exact hbs0
      obtain ⟨hul, hupl, huv, hust⟩ := hupd trivial
      by_cases hlt : scores.getD node 0 < e.total_weight
      · rw [if_pos hlt]
        obtain ⟨sp, hok, hc⟩ := ih _ _ hrest hul hupl hnode huv (Or.inr hust)
        refine ⟨sp, hok, hc.1, hc.2.1, ?_, ?_, ?_, ?_⟩
        · intro i hi
          rw [hc.2.2.1 i hi, getD_set_ne (fun hc' => hi hc'.symm)]
        · intro i hi
          rw [hc.2.2.2.1 i hi, getD_set_ne (fun hc' => hi hc'.symm)]
        · rcases hc.2.2.2.2.1 with ⟨h1, h2⟩ | h2
          · right
            have hall : ∀ j : Nat, sp.1.getD j 0 =
                (scores.set node e.total_weight).getD j 0 := by
              intro j
              by_cases hj : j = node
              · rw [hj]
                exact h1
              · exact hc.2.2.1 j hj
            refine ⟨by rw [h1]; exact hust.1, by rw [h2]; exact hust.2.1,
              by rw [h2]; exact hust.2.2.1, ?_⟩
            rw [h2, hall]
            exact hust.2.2.2
          · exact Or.inr h2
        · intro _
          rcases hc.2.2.2.2.1 with ⟨h1, h2⟩ | h2
          · rw [h1, h2]
            exact ⟨hust.1, by have := hust.2.1; omega⟩
          · exact ⟨h2.1, by have := h2.2.1; omega⟩
      · rw [if_neg hlt]
        -- not an improvement: the node is already in the positive state
        have hstate2 : 0 < scores.getD node 0 ∧ 0 ≤ preds.getD node (-1) ∧
            (preds.getD node (-1)).toNat < n ∧
            0 ≤ scores.getD (preds.getD node (-1)).toNat 0 := by
          rcases hstate with ⟨h1, -⟩ | h2
          · rw [h1] at hlt
            omega
          · exact h2
        by_cases heq : (scores.getD node 0 == e.total_weight) = true
        · rw [if_pos heq]
          have hidx : idxW scores (preds.getD node (-1)) =
              .ok (scores.getD (preds.getD node (-1)).toNat 0) := by
            rw [idxW, if_pos ⟨hstate2.2.1, by omega⟩]
          by_cases hcmp : scores.getD (preds.getD node (-1)).toNat 0 ≤
              scores.getD e.begin_node_id 0
          · obtain ⟨sp, hok, hc⟩ := ih _ _ hrest hul hupl hnode huv (Or.inr hust)
            refine ⟨sp, ?_, hc.1, hc.2.1, ?_, ?_, ?_, ?_⟩
            · rw [bind_ok]
              refine ⟨_, hidx, ?_⟩
              rw [if_pos hcmp]
              exact hok
            · intro i hi
              rw [hc.2.2.1 i hi, getD_set_ne (fun hc' => hi hc'.symm)]
            · intro i hi
              rw [hc.2.2.2.1 i hi, getD_set_ne (fun hc' => hi hc'.symm)]
            · rcases hc.2.2.2.2.1 with ⟨h1, h2⟩ | h2
              · right
                have hall : ∀ j : Nat, sp.1.getD j 0 =
                    (scores.set node e.total_weight).getD j 0 := by
                  intro j
                  by_cases hj : j = node
                  · rw [hj]
                    exact h1
                  · exact hc.2.2.1 j hj
                refine ⟨by rw [h1]; exact hust.1, by rw [h2]; exact hust.2.1,
                  by rw [h2]; exact hust.2.2.1, ?_⟩
                rw [h2, hall]
                exact hust.2.2.2
              · exact Or.inr h2
            · intro _
              rcases hc.2.2.2.2.1 with ⟨h1, h2⟩ | h2
              · rw [h1, h2]
                exact ⟨hust.1, by have := hust.2.1; omega⟩
              · exact ⟨h2.1, by have := h2.2.1; omega⟩
          · obtain ⟨sp, hok, hc⟩ := ih _ _ hrest hsl hpl hnode hval
              (Or.inr hstate2)
            refine ⟨sp, ?_, hc.1, hc.2.1, hc.2.2.1, hc.2.2.2.1, ?_, ?_⟩
            · rw [bind_ok]
              refine ⟨_, hidx, ?_⟩
              rw [if_neg hcmp]
              exact hok
            · rcases hc.2.2.2.2.1 with ⟨h1, h2⟩ | h2
              · right
                have hall : ∀ j : Nat, sp.1.getD j 0 = scores.getD j 0 := by
                  intro j
                  by_cases hj : j = node
                  · rw [hj]
                    exact h1
                  · exact hc.2.2.1 j hj
                refine ⟨by rw [h1]; exact hstate2.1,
                  by rw [h2]; exact hstate2.2.1,
                  by rw [h2]; exact hstate2.2.2.1, ?_⟩
                rw [h2, hall]
                exact hstate2.2.2.2
              · exact Or.inr h2
            · intro _
              rcases hc.2.2.2.2.1 with ⟨h1, h2⟩ | h2
              · rw [h1, h2]
                exact ⟨hstate2.1, by have := hstate2.2.1; omega⟩
              · exact ⟨h2.1, by have := h2.2.1; omega⟩
        · rw [if_neg heq]
          obtain ⟨sp, hok, hc⟩ := ih _ _ hrest hsl hpl hnode hval
            (Or.inr hstate2)
          refine ⟨sp, hok, hc.1, hc.2.1, hc.2.2.1, hc.2.2.2.1, ?_, ?_⟩
          · rcases hc.2.2.2.2.1 with ⟨h1, h2⟩ | h2
            · right
              have hall : ∀ j : Nat, sp.1.getD j 0 = scores.getD j 0 := by
                intro j
                by_cases hj : j = node
                · rw [hj]
                  exact h1
                · exact hc.2.2.1 j hj
              refine ⟨by rw [h1]; exact hstate2.1,
                by rw [h2]; exact hstate2.2.1,
                by rw [h2]; exact hstate2.2.2.1, ?_⟩
              rw [h2, hall]
              exact hstate2.2.2.2
            · exact Or.inr h2
          · intro _
            rcases hc.2.2.2.2.1 with ⟨h1, h2⟩ | h2
            · rw [h1, h2]
              exact ⟨hstate2.1, by have := hstate2.2.1; omega⟩
            · exact ⟨h2.1, by have := h2.2.1; omega⟩

theorem bc_scan_spec (g : Graph) (hnum : g.num_nodes ≤ 2147483647)
    (hedges : ∀ e ∈ g.edges, 0 < e.total_weight ∧
      e.begin_node_id < g.num_nodes) :
    ∀ (l : List Nat) (scores : List ℤ) (preds : List Int) (maxs : ℤ)
      (maxid : Nat),
    (∀ v ∈ l, v < g.num_nodes) → l.Nodup →
    scores.length = g.num_nodes → preds.length = g.num_nodes →
    (∀ i : Nat, scores.getD i 0 = -1 ∨ 0 ≤ scores.getD i 0) →
    (∀ i : Nat, preds.getD i (-1) = -1 ∨ (0 ≤ preds.getD i (-1) ∧
      (preds.getD i (-1)).toNat < g.num_nodes)) →
    0 ≤ maxs →
    (0 < maxs → maxid ∉ l ∧ scores.getD maxid 0 = maxs ∧
      maxid < g.num_nodes) →
    ∃ r, bc_scan g l scores preds maxs maxid = .ok r ∧
      r.1.length = g.num_nodes ∧ r.2.1.length = g.num_nodes ∧
      (∀ i : Nat, r.1.getD i 0 = -1 ∨ 0 ≤ r.1.getD i 0) ∧
      (∀ i : Nat, r.2.1.getD i (-1) = -1 ∨ (0 ≤ r.2.1.getD i (-1) ∧
        (r.2.1.getD i (-1)).toNat < g.num_nodes)) ∧
      (∀ i : Nat, i ∉ l → r.1.getD i 0 = scores.getD i 0) ∧
      (r.2.2 = maxid ∨ r.2.2 ∈ l) ∧
      (((∃ w ∈ l, ∃ e ∈ in_edges g w, e.begin_node_id ∉ l ∧
          scores.getD e.begin_node_id 0 ≠ -1) ∨ 0 < maxs) →
        (r.2.2 ∈ l ∨ (0 < maxs ∧ r.2.2 = maxid)) ∧ 0 < r.1.getD r.2.2 0) := by
  intro l
  induction l with
  | nil =>
    intro scores preds maxs maxid hl hnd hsl hpl hval hpred hms hmx
    refine ⟨(scores, preds, maxid), by rw [bc_scan], hsl, hpl, hval, hpred,
      fun i _ => rfl, Or.inl rfl, ?_⟩
    rintro (⟨w, hw, -⟩ | hpos)
    · exact absurd hw (List.not_mem_nil w)
    · obtain ⟨-, h2, -⟩ := hmx hpos
      exact ⟨Or.inr ⟨hpos, rfl⟩, by rw [h2]; exact hpos⟩
  | cons v rest ih =>
    intro scores preds maxs maxid hl hnd hsl hpl hval hpred hms hmx
    have hv : v < g.num_nodes := hl v (List.mem_cons_self ..)
    have hvrest : v ∉ rest := (List.nodup_cons.mp hnd).1
    have hndr : rest.Nodup := (List.nodup_cons.mp hnd).2
    have hlr : ∀ u ∈ rest, u < g.num_nodes :=
      fun u hu => hl u (List.mem_cons_of_mem _ hu)
    have hes : ∀ e ∈ in_edges g v, 0 < e.total_weight ∧
        e.begin_node_id < g.num_nodes :=
      fun e he => hedges e (mem_in_edges.mp he).1
    have hs0v : (scores.set v (-1 : ℤ)).getD v 0 = -1 :=
      getD_set_self2 (by omega)
    have hp0v : (preds.set v (-1 : Int)).getD v (-1) = -1 :=
      getD_set_self2 (by omega)
    obtain ⟨sp, hok, hc⟩ := bc_inner_spec g.num_nodes v (in_edges g v)
      (scores.set v (-1)) (preds.set v (-1)) hes
      (by rw [List.length_set]; exact hsl)
      (by rw [List.length_set]; exact hpl) hv
      (by
        intro i
        rw [getD_set_cases]
        split
        · left
          rfl
        · exact hval i)
      (Or.inl ⟨hs0v, hp0v⟩)
    obtain ⟨s1, p1⟩ := sp
    have hl1 : s1.length = g.num_nodes := hc.1
    have hpl1 : p1.length = g.num_nodes := hc.2.1
    have hout1 : ∀ i : Nat, i ≠ v →
        s1.getD i 0 = (scores.set v (-1 : ℤ)).getD i 0 := hc.2.2.1
    have hout2 : ∀ i : Nat, i ≠ v →
        p1.getD i (-1) = (preds.set v (-1 : Int)).getD i (-1) := hc.2.2.2.1
    have hstate : (s1.getD v 0 = (scores.set v (-1 : ℤ)).getD v 0 ∧
        p1.getD v (-1) = (preds.set v (-1 : Int)).getD v (-1)) ∨
        (0 < s1.getD v 0 ∧ 0 ≤ p1.getD v (-1) ∧
         (p1.getD v (-1)).toNat < g.num_nodes ∧
         0 ≤ s1.getD (p1.getD v (-1)).toNat 0) := hc.2.2.2.2.1
    have htrig : (∃ e ∈ in_edges g v,
        (scores.set v (-1 : ℤ)).getD e.begin_node_id 0 ≠ -1 ∧
        e.begin_node_id ≠ v) →
        0 < s1.getD v 0 ∧ p1.getD v (-1) ≠ -1 := hc.2.2.2.2.2
    have hs1out : ∀ i : Nat, i ≠ v → s1.getD i 0 = scores.getD i 0 := by
      intro i hi
      rw [hout1 i hi, getD_set_ne (fun hc' => hi hc'.symm)]
    have hp1out : ∀ i : Nat, i ≠ v → p1.getD i (-1) = preds.getD i (-1) := by
      intro i hi
      rw [hout2 i hi, getD_set_ne (fun hc' => hi hc'.symm)]
    have hval1 : ∀ i : Nat, s1.getD i 0 = -1 ∨ 0 ≤ s1.getD i 0 := by
      intro i
      by_cases hi : i = v
      · subst hi
        rcases hstate with ⟨h1, -⟩ | ⟨h1, -⟩
        · left
          rw [h1, hs0v]
        · right
          omega
      · rw [hs1out i hi]
        exact hval i
    have hpred1 : ∀ i : Nat, p1.getD i (-1) = -1 ∨ (0 ≤ p1.getD i (-1) ∧
        (p1.getD i (-1)).toNat < g.num_nodes) := by
      intro i
      by_cases hi : i = v
      · subst hi
        rcases hstate with ⟨-, h2⟩ | ⟨-, h2, h3, -⟩
        · left
          rw [h2, hp0v]
        · exact Or.inr ⟨h2, h3⟩
      · rw [hp1out i hi]
        exact hpred i
    rcases hstate with ⟨hsv, hpv⟩ | ⟨hs2a, hs2b, hs2c, hs2d⟩
    · -- no usable in-edge: the node keeps score -1 and no predecessor
      have hsv' : s1.getD v 0 = -1 := by rw [hsv, hs0v]
      have hpv' : p1.getD v (-1) = -1 := by rw [hpv, hp0v]
      have hbne : (p1.getD v (-1) != (-1 : Int)) = false := by
        rw [hpv']
        rfl
      have hnc : ¬ (maxs < s1.getD v 0) := by omega
      obtain ⟨r, hrec, hrc⟩ := ih s1 p1 maxs maxid hlr hndr hl1 hpl1 hval1
        hpred1 hms
        (by
          intro hpos
          obtain ⟨h1, h2, h3⟩ := hmx hpos
          refine ⟨fun hmem => h1 (List.mem_cons_of_mem _ hmem), ?_, h3⟩
          rw [hs1out maxid ?hne]
          · exact h2
          case hne =>
            intro hc'
            exact h1 (hc' ▸ List.mem_cons_self ..))
      refine ⟨r, ?_, hrc.1, hrc.2.1, hrc.2.2.1, hrc.2.2.2.1, ?_, ?_, ?_⟩
      · rw [bc_scan]
        simp only [bind_ok]
        refine ⟨(s1, p1), hok, ?_⟩
        rw [hbne]
        simp only [Bool.false_eq_true, if_false]
        rw [if_neg hnc]
        exact hrec
      · intro i hi
        have hiv : i ≠ v := fun hc' => hi (hc' ▸ List.mem_cons_self ..)
        have hir : i ∉ rest := fun hm => hi (List.mem_cons_of_mem _ hm)
        rw [hrc.2.2.2.2.1 i hir, hs1out i hiv]
      · rcases hrc.2.2.2.2.2.1 with h | h
        · exact Or.inl h
        · exact Or.inr (List.mem_cons_of_mem _ h)
      · rintro (⟨w, hw, e, he, hbnotin, hbs⟩ | hpos)
        · rcases List.mem_cons.mp hw with rfl | hwrest
          · -- the witness edge would have driven the node positive
            exfalso
            have hbnv : e.begin_node_id ≠ w :=
              fun hc' => hbnotin (hc' ▸ List.mem_cons_self ..)
            have := htrig ⟨e, he, ?_, hbnv⟩
            · omega
            · rw [getD_set_ne (fun hc' => hbnv hc'.symm)]
              exact hbs
          · have := hrc.2.2.2.2.2.2 (Or.inl ⟨w, hwrest, e, he, ?_, ?_⟩)
            · rcases this with ⟨h1, h2⟩
              refine ⟨?_, h2⟩
              rcases h1 with h | ⟨hp, h⟩
              · exact Or.inl (List.mem_cons_of_mem _ h)
              · exact Or.inr ⟨hp, h⟩
            · exact fun hm => hbnotin (List.mem_cons_of_mem _ hm)
            · rw [hs1out e.begin_node_id
                (fun hc' => hbnotin (hc' ▸ List.mem_cons_self ..))]
              exact hbs
        · have := hrc.2.2.2.2.2.2 (Or.inr hpos)
          rcases this with ⟨h1, h2⟩
          refine ⟨?_, h2⟩
          rcases h1 with h | ⟨hp, h⟩
          · exact Or.inl (List.mem_cons_of_mem _ h)
          · exact Or.inr ⟨hp, h⟩
    · -- a predecessor was chosen: the node's new score is positive
      have hpne : p1.getD v (-1) ≠ -1 := by omega
      have hbne : (p1.getD v (-1) != (-1 : Int)) = true := by
        simpa using hpne
      have hu32 : u32 (p1.getD v (-1)) = (p1.getD v (-1)).toNat :=
        u32_eq_toNat hs2b (by omega)
      have hS2v : (s1.set v (s1.getD v 0 +
          s1.getD (u32 (p1.getD v (-1))) 0)).getD v 0 =
          s1.getD v 0 + s1.getD (p1.getD v (-1)).toNat 0 := by
        rw [getD_set_self2 (by omega), hu32]
      have hS2out : ∀ i : Nat, i ≠ v →
          (s1.set v (s1.getD v 0 +
            s1.getD (u32 (p1.getD v (-1))) 0)).getD i 0 = s1.getD i 0 :=
        fun i hi => getD_set_ne (fun hc' => hi hc'.symm)
      have hS2l : (s1.set v (s1.getD v 0 +
          s1.getD (u32 (p1.getD v (-1))) 0)).length = g.num_nodes := by
        rw [List.length_set]
        exact hl1
      have hpos2 : 0 < (s1.set v (s1.getD v 0 +
          s1.getD (u32 (p1.getD v (-1))) 0)).getD v 0 := by
        rw [hS2v]
        omega
      have hval2 : ∀ i : Nat, (s1.set v (s1.getD v 0 +
          s1.getD (u32 (p1.getD v (-1))) 0)).getD i 0 = -1 ∨
          0 ≤ (s1.set v (s1.getD v 0 +
            s1.getD (u32 (p1.getD v (-1))) 0)).getD i 0 := by
        intro i
        by_cases hi : i = v
        · subst hi
          right
          omega
        · rw [hS2out i hi]
          exact hval1 i
      by_cases hcm : maxs < (s1.set v (s1.getD v 0 +
          s1.getD (u32 (p1.getD v (-1))) 0)).getD v 0
      · obtain ⟨r, hrec, hrc⟩ := ih _ p1 _ v hlr hndr hS2l hpl1 hval2 hpred1
          (by omega) (fun _ => ⟨hvrest, rfl, hv⟩)
        refine ⟨r, ?_, hrc.1, hrc.2.1, hrc.2.2.1, hrc.2.2.2.1, ?_, ?_, ?_⟩
        · rw [bc_scan]
          simp only [bind_ok]
          refine ⟨(s1, p1), hok, ?_⟩
          rw [hbne]
          simp only [if_true]
          rw [if_pos hcm]
          exact hrec
        · intro i hi
          have hiv : i ≠ v := fun hc' => hi (hc' ▸ List.mem_cons_self ..)
          have hir : i ∉ rest := fun hm => hi (List.mem_cons_of_mem _ hm)
          rw [hrc.2.2.2.2.1 i hir, hS2out i hiv, hs1out i hiv]
        · rcases hrc.2.2.2.2.2.1 with h | h
          · exact Or.inr (h ▸ List.mem_cons_self ..)
          · exact Or.inr (List.mem_cons_of_mem _ h)
        · intro _
          have := hrc.2.2.2.2.2.2 (Or.inr hpos2)
          rcases this with ⟨h1, h2⟩
          refine ⟨?_, h2⟩
          rcases h1 with h | ⟨-, h⟩
          · exact Or.inl (List.mem_cons_of_mem _ h)
          · exact Or.inl (h ▸ List.mem_cons_self ..)
      · have hmp : 0 < maxs := by omega
        obtain ⟨hmx1, hmx2, hmx3⟩ := hmx hmp
        have hmv : maxid ≠ v := fun hc' => hmx1 (hc' ▸ List.mem_cons_self ..)
        obtain ⟨r, hrec, hrc⟩ := ih _ p1 maxs maxid hlr hndr hS2l hpl1 hval2
          hpred1 hms
          (fun _ => ⟨fun hm => hmx1 (List.mem_cons_of_mem _ hm),
            by rw [hS2out maxid hmv, hs1out maxid hmv]; exact hmx2, hmx3⟩)
        refine ⟨r, ?_, hrc.1, hrc.2.1, hrc.2.2.1, hrc.2.2.2.1, ?_, ?_, ?_⟩
        · rw [bc_scan]
          simp only [bind_ok]
          refine ⟨(s1, p1), hok, ?_⟩
          rw [hbne]
          simp only [if_true]
          rw [if_neg hcm]
          exact hrec
        · intro i hi
          have hiv : i ≠ v := fun hc' => hi (hc' ▸ List.mem_cons_self ..)
          have hir : i ∉ rest := fun hm => hi (List.mem_cons_of_mem _ hm)
          rw [hrc.2.2.2.2.1 i hir, hS2out i hiv, hs1out i hiv]
        · rcases hrc.2.2.2.2.2.1 with h | h
          · exact Or.inl h
          · exact Or.inr (List.mem_cons_of_mem _ h)
        · intro _
          have := hrc.2.2.2.2.2.2 (Or.inr hmp)
          rcases this with ⟨h1, h2⟩
          refine ⟨?_, h2⟩
          rcases h1 with h | ⟨hp, h⟩
          · exact Or.inl (List.mem_cons_of_mem _ h)
          · exact Or.inr ⟨hp, h⟩

theorem rank_lt_of_mem_drop {g : Graph} (hnd : g.sorted_nodes_ids.Nodup)
    {r x : Nat} (hx : x ∈ g.sorted_nodes_ids.drop (r + 1)) :
    r < rankOf g x := by
  obtain ⟨i, hi, heq⟩ := List.getElem_of_mem hx
  have hlen : r + 1 + i < g.sorted_nodes_ids.length := by
    simp only [List.length_drop] at hi
    omega
  rw [List.getElem_drop _] at heq
  have := List.indexOf_getElem hnd (r + 1 + i) hlen
  rw [heq] at this
  rw [rankOf, this]
  omega

theorem mem_drop_of_rank_gt {g : Graph} {r x : Nat}
    (hx : x ∈ g.sorted_nodes_ids) (hr : r < rankOf g x) :
    x ∈ g.sorted_nodes_ids.drop (r + 1) := by
  have hlt : rankOf g x < g.sorted_nodes_ids.length :=
    List.indexOf_lt_length.mpr hx
  have hbound : rankOf g x - (r + 1) < (g.sorted_nodes_ids.drop (r + 1)).length := by
    simp only [List.length_drop]
    omega
  have heq : (g.sorted_nodes_ids.drop (r + 1))[rankOf g x - (r + 1)] = x := by
    rw [List.getElem_drop _]
    have harith : r + 1 + (rankOf g x - (r + 1)) = rankOf g x := by omega
    have := List.getElem_indexOf hlt
    simp only [harith]
    exact this
  rw [← heq]
  exact List.getElem_mem _

theorem sorted_getD_rank {g : Graph} (hvo : ValidOrder g) {maxid : Nat}
    (hm : maxid < g.num_nodes) :
    g.sorted_nodes_ids.getD (rankOf g maxid) 0 = maxid := by
  have hmem := valid_order_mem hvo hm
  have hlt : rankOf g maxid < g.sorted_nodes_ids.length :=
    List.indexOf_lt_length.mpr hmem
  rw [List.getD_eq_getElem?_getD, List.getElem?_eq_getElem hlt]
  exact List.getElem_indexOf hlt

theorem branch_completion_spec {g : Graph} (hwf : WF g) (hvo : ValidOrder g)
    (hpos : PosWeights g) (hnum : g.num_nodes ≤ 2147483647)
    {scores : List ℤ} {preds : List Int} {maxid : Nat}
    (hsl : scores.length = g.num_nodes) (hpl : preds.length = g.num_nodes)
    (hval : ∀ i : Nat, scores.getD i 0 = -1 ∨ 0 ≤ scores.getD i 0)
    (hpred : ∀ i : Nat, preds.getD i (-1) = -1 ∨ (0 ≤ preds.getD i (-1) ∧
      (preds.getD i (-1)).toNat < g.num_nodes))
    (hm : maxid < g.num_nodes) (hms : 0 ≤ scores.getD maxid 0)
    (hout : (out_edges g maxid).length ≠ 0) :
    ∃ r, branch_completion g scores preds (rankOf g maxid) = .ok r ∧
      r.1.length = g.num_nodes ∧ r.2.1.length = g.num_nodes ∧
      (∀ i : Nat, r.1.getD i 0 = -1 ∨ 0 ≤ r.1.getD i 0) ∧
      (∀ i : Nat, r.2.1.getD i (-1) = -1 ∨ (0 ≤ r.2.1.getD i (-1) ∧
        (r.2.1.getD i (-1)).toNat < g.num_nodes)) ∧
      rankOf g maxid < rankOf g r.2.2 ∧ r.2.2 < g.num_nodes ∧
      0 < r.1.getD r.2.2 0 := by
  have hedges : ∀ e ∈ g.edges, 0 < e.total_weight ∧
      e.begin_node_id < g.num_nodes :=
    fun e he => ⟨hpos e he, (hwf.2.1 e he).1⟩
  have hnd := hvo.1
  have hnode : g.sorted_nodes_ids.getD (rankOf g maxid) 0 = maxid :=
    sorted_getD_rank hvo hm
  obtain ⟨hil, hiv, hivals⟩ := bc_invalidate_spec g scores maxid
  have hval1 : ∀ i : Nat, (bc_invalidate g scores maxid).getD i 0 = -1 ∨
      0 ≤ (bc_invalidate g scores maxid).getD i 0 := by
    intro i
    rcases hivals i with h | h
    · rw [h]
      exact hval i
    · left
      exact h
  obtain ⟨e, he⟩ := List.exists_mem_of_length_pos (Nat.pos_of_ne_zero hout)
  obtain ⟨heg, hbeg⟩ := mem_out_edges.mp he
  have hwlt : e.end_node_id < g.num_nodes := (hwf.2.1 e heg).2
  have hrank : rankOf g maxid < rankOf g e.end_node_id := by
    have := hvo.2.2.2 e heg
    rw [rankOf, rankOf, ← hbeg]
    exact this
  have hwmem : e.end_node_id ∈ g.sorted_nodes_ids.drop (rankOf g maxid + 1) :=
    mem_drop_of_rank_gt (valid_order_mem hvo hwlt) hrank
  have hmnotin : maxid ∉ g.sorted_nodes_ids.drop (rankOf g maxid + 1) := by
    intro hmem
    have := rank_lt_of_mem_drop hnd hmem
    omega
  obtain ⟨r, hok, hc⟩ := bc_scan_spec g hnum hedges
    (g.sorted_nodes_ids.drop (rankOf g maxid + 1))
    (bc_invalidate g scores maxid) preds 0 0
    (fun u hu => hvo.2.2.1 u (List.mem_of_mem_drop hu))
    ((List.drop_sublist _ _).nodup hnd)
    (by rw [hil]; exact hsl) hpl hval1 hpred (le_refl 0)
    (by omega)
  have htrig := hc.2.2.2.2.2.2 (Or.inl ⟨e.end_node_id, hwmem, e,
    mem_in_edges.mpr ⟨heg, rfl⟩, by rw [hbeg]; exact hmnotin, by
      rw [hbeg, hiv]
      omega⟩)
  have hrmem : r.2.2 ∈ g.sorted_nodes_ids.drop (rankOf g maxid + 1) := by
    rcases htrig.1 with h | ⟨h0, -⟩
    · exact h
    · omega
  refine ⟨r, ?_, hc.1, hc.2.1, hc.2.2.1, hc.2.2.2.1, ?_, ?_, htrig.2⟩
  · rw [branch_completion, hnode]
    exact hok
  · exact rank_lt_of_mem_drop hnd hrmem
  · exact hvo.2.2.1 _ (List.mem_of_mem_drop hrmem)

theorem hb_loop_spec {g : Graph} (hwf : WF g) (hvo : ValidOrder g)
    (hpos : PosWeights g) (hnum : g.num_nodes ≤ 2147483647) :
    ∀ (fuel : Nat) (scores : List ℤ) (preds : List Int) (maxid : Nat),
    scores.length = g.num_nodes → preds.length = g.num_nodes →
    (∀ i : Nat, scores.getD i 0 = -1 ∨ 0 ≤ scores.getD i 0) →
    (∀ i : Nat, preds.getD i (-1) = -1 ∨ (0 ≤ preds.getD i (-1) ∧
      (preds.getD i (-1)).toNat < g.num_nodes)) →
    maxid < g.num_nodes → 0 ≤ scores.getD maxid 0 →
    g.num_nodes - rankOf g maxid < fuel →
    ∃ r, hb_loop g (mk_rank g) fuel scores preds maxid = .ok r ∧
      (out_edges g r.2.2).length = 0 ∧
      r.2.1.length = g.num_nodes ∧
      (∀ i : Nat, r.2.1.getD i (-1) = -1 ∨ (0 ≤ r.2.1.getD i (-1) ∧
        (r.2.1.getD i (-1)).toNat < g.num_nodes)) ∧
      r.2.2 < g.num_nodes := by
  intro fuel
  induction fuel with
  | zero =>
    intro scores preds maxid hsl hpl hval hpred hm hms hfuel
    have hrlt : rankOf g maxid < g.num_nodes := by
      rw [rankOf]
      have := List.indexOf_lt_length.mpr (valid_order_mem hvo hm)
      have hlen := hvo.2.1
      omega
    omega
  | succ fuel ih =>
    intro scores preds maxid hsl hpl hval hpred hm hms hfuel
    rw [hb_loop]
    by_cases hout : ((out_edges g maxid).length == 0) = true
    · rw [if_pos hout]
      exact ⟨(scores, preds, maxid), rfl, by simpa using hout, hpl, hpred, hm⟩
    · rw [if_neg hout]
      have hout' : (out_edges g maxid).length ≠ 0 := by simpa using hout
      have hrk : (mk_rank g).getD maxid 0 = rankOf g maxid :=
        mk_rank_spec hvo maxid hm
      obtain ⟨r1, hbc, hc⟩ := branch_completion_spec hwf hvo hpos hnum
        hsl hpl hval hpred hm hms hout'
      obtain ⟨s2, p2, m2⟩ := r1
      have hrank2 : rankOf g maxid < rankOf g m2 := hc.2.2.2.2.1
      have hm2 : m2 < g.num_nodes := hc.2.2.2.2.2.1
      have hpos2 : 0 < s2.getD m2 0 := hc.2.2.2.2.2.2
      have hrlt : rankOf g maxid < g.num_nodes := by
        rw [rankOf]
        have := List.indexOf_lt_length.mpr (valid_order_mem hvo hm)
        have hlen := hvo.2.1
        omega
      obtain ⟨r, hrec, hrc⟩ := ih s2 p2 m2 hc.1 hc.2.1 hc.2.2.1 hc.2.2.2.1
        hm2 (by omega) (by omega)
      refine ⟨r, ?_, hrc⟩
      simp only [bind_ok]
      refine ⟨(s2, p2, m2), ?_, hrec⟩
      rw [hrk]
      exact hbc

/-- C2, amended.  The branch-completion loop terminates on every finite
DAG whose edge weights are all strictly positive (but not on every
finite DAG, see the counterexample): under positive weights every
branch_completion call made from a non-sink best node returns a node of
strictly greater topological rank, so the while-loop reaches a node with
no outgoing edges within num_nodes iterations. -/
theorem C2_amended_positive_weights (g : Graph) (hwf : WF g)
    (hvo : ValidOrder g) (hpos : PosWeights g)
    (hnum : g.num_nodes ≤ 2147483647)
    (scores : List ℤ) (preds : List Int) (maxid : Nat)
    (hsl : scores.length = g.num_nodes) (hpl : preds.length = g.num_nodes)
    (hval : ∀ i : Nat, scores.getD i 0 = -1 ∨ 0 ≤ scores.getD i 0)
    (hpred : ∀ i : Nat, preds.getD i (-1) = -1 ∨ (0 ≤ preds.getD i (-1) ∧
      (preds.getD i (-1)).toNat < g.num_nodes))
    (hm : maxid < g.num_nodes) (hms : 0 ≤ scores.getD maxid 0) :
    ((out_edges g maxid).length ≠ 0 →
      ∃ r, branch_completion g scores preds (rankOf g maxid) = .ok r ∧
        rankOf g maxid < rankOf g r.2.2) ∧
    ∃ r, hb_loop g (mk_rank g) (g.num_nodes + 1) scores preds maxid = .ok r ∧
      (out_edges g r.2.2).length = 0 := by
  constructor
  · intro hout
    obtain ⟨r, hok, hc⟩ := branch_completion_spec hwf hvo hpos hnum
      hsl hpl hval hpred hm hms hout
    exact ⟨r, hok, hc.2.2.2.2.1⟩
  · obtain ⟨r, hok, hsink, -⟩ := hb_loop_spec hwf hvo hpos hnum
      (g.num_nodes + 1) scores preds maxid hsl hpl hval hpred hm hms
      (by omega)
    exact ⟨r, hok, hsink⟩

/-- C2, witness: the loop on the positive-weight two-sequence scenario
graph, started from node 0 with the initial arrays. -/
theorem C2_witness :
    ((out_edges c1g 0).length ≠ 0 →
      ∃ r, branch_completion c1g (List.replicate c1g.num_nodes 0)
        (List.replicate c1g.num_nodes (-1)) (rankOf c1g 0) = .ok r ∧
        rankOf c1g 0 < rankOf c1g r.2.2) ∧
    ∃ r, hb_loop c1g (mk_rank c1g) (c1g.num_nodes + 1)
      (List.replicate c1g.num_nodes 0) (List.replicate c1g.num_nodes (-1)) 0
      = .ok r ∧ (out_edges c1g r.2.2).length = 0 := by
  have hra : Reachable c1ga :=
    Reachable.base ("ACGT".toList) (List.replicate ("ACGT".toList).length 1)
      c1ga (by decide)
  have hr : Reachable c1g :=
    Reachable.step c1ga [0, 1, 2, 3] [0, 1, 2, 3] ("ACCT".toList)
      (List.replicate 4 1) c1g hra (by decide)
  exact C2_amended_positive_weights c1g (reachable_ginv hr).1.1
    (reachable_ginv hr).2 (by unfold PosWeights; decide) (by decide)
    (List.replicate c1g.num_nodes 0) (List.replicate c1g.num_nodes (-1)) 0
    (List.length_replicate ..) (List.length_replicate ..)
    (fun i => Or.inr (by rw [getD_replicate2]))
    (fun i => Or.inl (by rw [getD_replicate2]))
    (by decide) (by rw [getD_replicate2])

end SPOA
